import Mathlib

/-!
Verification of the simlir IPv4 prefix tree (src/tree.py) and the
amount-decomposition helper (src/simulation.py).

The tree is a binary trie over the 32-bit IPv4 address space.  Python nodes
carry mutable left/right/parent links, a data string and a used flag; here a
node is an inductive value and an absent child (Python None) is the
constructor `PNode.missing`.  A node of the Python tree is identified by its
root path, a `List Bool` (false = left = bit 0, true = right = bit 1), which
is exactly `Node.GetPath()`.  Parent links are replaced by path arithmetic
(`List.dropLast`), which is what `Node.GetParent` / `Node.GetLevel` compute.
-/

deriving instance DecidableEq for Except

namespace Simlir

/-- A root path in the trie: false steps left (bit 0), true steps right
(bit 1), exactly the characters of `Node.GetPath()` in src/tree.py. -/
abbrev Path := List Bool

/-- Numeric value of one bit. -/
def bval : Bool → Nat
  | false => 0
  | true => 1

/-- Value of a bit string read MSB-first, as Python `int(binstr, 2)`. -/
def val : Path → Nat
  | [] => 0
  | b :: e => bval b * 2 ^ e.length + val e

/-- The first `w` bits of the `w`-bit big-endian binary expansion of `a`,
MSB first: `IPy.IP.strBin()` produces exactly this for `w = 32`. -/
def bitsOf : Nat → Nat → Path
  | 0, _ => []
  | w + 1, a => decide (a / 2 ^ w % 2 = 1) :: bitsOf w a

/-- The bit path of the route `addr/len`: in `Tree.Insert` and `Tree.Lookup`
the code walks `binary[:netlen]` where `binary = ip.strBin()`. -/
def routeBits (addr len : Nat) : Path := (bitsOf 32 addr).take len

/-- One dotted-quad octet group of a 32-bit integer. -/
def octet (n i : Nat) : Nat := n / 2 ^ (8 * i) % 256

/-- Dotted-quad/CIDR rendering of `addr/len`, the result of
`IPy.IP(hex_addr + "/" + str(len)).strNormal(1)` for `addr < 2^32`. -/
def ipStr (addr len : Nat) : String :=
  toString (octet addr 3) ++ "." ++ toString (octet addr 2) ++ "." ++
  toString (octet addr 1) ++ "." ++ toString (octet addr 0) ++ "/" ++ toString len

/-- `Tree.PathToDotQuad(binstr, depth)`: pad the bit path with zeros on the
right to 32 bits, read it as a big-endian integer, and render it as a
dotted quad with prefix length `depth`. -/
def PathToDotQuad (binstr : Path) (depth : Nat) : String :=
  ipStr (val (binstr ++ List.replicate (32 - binstr.length) false)) depth

/-- A trie node, or an absent child slot (Python `None`).  Fields of
`PNode.node` are left child, right child, `data`, `used`. -/
inductive PNode : Type
  | missing : PNode
  | node (left : PNode) (right : PNode) (data : String) (used : Bool) : PNode
deriving DecidableEq

namespace PNode

/-- The subtree of `t` reached by following path `p`; `missing` if the walk
falls off the tree. -/
def subtreeAt (t : PNode) : Path → PNode
  | [] => t
  | b :: p =>
    match t with
    | .missing => .missing
    | .node l r _ _ => subtreeAt (if b then r else l) p

/-- Does a node exist at path `p`? -/
def existsAt (t : PNode) (p : Path) : Bool :=
  match t.subtreeAt p with
  | .missing => false
  | .node _ _ _ _ => true

/-- The used flag of the node at path `p` (false if absent). -/
def usedAt (t : PNode) (p : Path) : Bool :=
  match t.subtreeAt p with
  | .missing => false
  | .node _ _ _ u => u

/-- The data of the node at path `p` (empty string if absent). -/
def dataAt (t : PNode) (p : Path) : String :=
  match t.subtreeAt p with
  | .missing => ""
  | .node _ _ d _ => d

/-- Is some node of `t` (including `t` itself) marked used? -/
def hasUsed : PNode → Bool
  | .missing => false
  | .node l r _ u => u || hasUsed l || hasUsed r

/-- Number of real nodes in `t`. -/
def count : PNode → Nat
  | .missing => 0
  | .node l r _ _ => 1 + count l + count r

/-- Is this the absent-child marker? -/
def isMissing : PNode → Bool
  | .missing => true
  | .node _ _ _ _ => false

end PNode

/-- The sentinel data put on nodes auto-created while descending
(`"CREATED BY INSERT"` in `Tree.Insert`). -/
def sentinel : String := "CREATED BY INSERT"

/-- A fresh tree: `Tree.__init__` creates a root node with data "Root",
no children, not used. -/
def tree0 : PNode := .node .missing .missing "Root" false

/-- The walk of `Tree.Insert`, one recursive call per bit of
`binary[:netlen]`.  Returns the updated subtree and the success flag
(Python returns the inserted node on success and `False` on failure;
the inserted node is the one at the walked path, so the path itself
identifies it).  Mutations performed before a failure return persist, as in
Python; auto-created nodes get `used = False` and the sentinel data. -/
def insertGo (bits : Path) (cur : PNode) (d : String) (mu tu tn td : Bool) :
    PNode × Bool :=
  match cur with
  | .missing => (.missing, false)
  | .node l r dat u =>
    match bits with
    | [] =>
      if td && !(dat == sentinel) then (.node l r dat u, false)
      else (.node l r d (mu || u), true)
    | b :: rest =>
      if u && tu then (.node l r dat u, false)
      else if b then
        match r with
        | .missing =>
          if tn then (.node l r dat u, false)
          else
            let res := insertGo rest (.node .missing .missing sentinel false) d mu tu tn td
            (.node l res.1 dat u, res.2)
        | .node rl rr rdat ru =>
          let res := insertGo rest (.node rl rr rdat ru) d mu tu tn td
          (.node l res.1 dat u, res.2)
      else
        match l with
        | .missing =>
          if tn then (.node l r dat u, false)
          else
            let res := insertGo rest (.node .missing .missing sentinel false) d mu tu tn td
            (.node res.1 r dat u, res.2)
        | .node ll lr ldat lu =>
          let res := insertGo rest (.node ll lr ldat lu) d mu tu tn td
          (.node res.1 r dat u, res.2)

/-- `Tree.Insert(route, supplied_data, mark_used, test_used, test_none,
test_dup)` for the route `addr/len`. -/
def InsertR (t : PNode) (addr len : Nat) (d : String) (mu tu tn td : Bool) :
    PNode × Bool :=
  insertGo (routeBits addr len) t d mu tu tn td

/-- `Tree.Insert` with its default flags (`mark_used = True`,
`test_used = False`, `test_none = False`, `test_dup = True`). -/
def Insert (t : PNode) (addr len : Nat) (d : String) : PNode × Bool :=
  InsertR t addr len d true false false true

/-- `Tree.Lookup(route)` with the default `used_check = False`: walk the bit
path; `None` as soon as a child link is absent, otherwise the node at depth
`len`.  Walking bit-by-bit and returning `None` at the first absent link is
the same as taking the subtree at the full path, since `missing` has no
children. -/
def LookupR (t : PNode) (addr len : Nat) : Option PNode :=
  match t.subtreeAt (routeBits addr len) with
  | .missing => none
  | .node l r dat u => some (.node l r dat u)

/-- Result of a `Tree.FindGap` call. -/
inductive FGResult : Type
  | found (cidr : String)
  | gapNone
  | nameErrorDepth
  | attrError
  | fuelOut
deriving DecidableEq

/-- `Node.GetParent()` on the node at path `p`, as a path (`none` for the
root, which has no parent). -/
def parentLoc (p : Path) : Option Path :=
  match p with
  | [] => none
  | _ :: _ => some p.dropLast

/-- `GetLeft()` / `GetRight()` on the node at path `p`, as an optional path:
`none` when the child slot is empty. -/
def childLoc (t : PNode) (p : Path) (b : Bool) : Option Path :=
  if t.existsAt (p ++ [b]) then some (p ++ [b]) else none

/-- The body of one execution of the `while` loop of `Tree.FindGap`: given
previous and the current node path `p` (and the standing value of
`next_node` for the no-branch-matches fallback), either return
(`Sum.inl`) or hand the next node (`Sum.inr`) to the loop.  The branch
structure follows the source line by line:
- arrival from the parent (or the initial `previous == current == root`):
  a used node backs off to `previous`; an unused node at level `size`
  climbs (when `start_from` is `None`, or — in a later branch — when
  `start_from` is not the root); an empty left slot is the gap (under
  `strict` it is rendered at `size`; otherwise the source reads the
  undefined name `depth` and raises `NameError`); otherwise descend left;
- arrival from the left child: symmetric on the right slot;
- arrival from the right child: climb, except that a `start_from`-bounded
  search returns `None` once the parent would be above `start_from`
  (`current.GetParent().GetLevel()` raises `AttributeError` at the root);
- if none of the three comparisons match, `next_node` keeps its old
  value. -/
def fgStep (t : PNode) (size : Nat) (strict : Bool) (startFrom : Option Path)
    (testBlank : Bool) (prev : Option Path) (p : Path) (nxt : Option Path) :
    FGResult ⊕ Option Path :=
  if prev = parentLoc p ∨ (prev = some [] ∧ p = []) then
    if t.usedAt p then .inr prev
    else if p.length = size ∧ startFrom = none then .inr (parentLoc p)
    else if childLoc t p false = none ∧ testBlank = false then
      if strict then .inl (.found (PathToDotQuad (p ++ [false]) size))
      else .inl .nameErrorDepth
    else if p.length = size ∧ startFrom ≠ some [] then .inr (parentLoc p)
    else if childLoc t p false = none ∧ testBlank = true then .inl .gapNone
    else .inr (childLoc t p false)
  else if prev = childLoc t p false then
    if t.usedAt p then .inr prev
    else if p.length = size then .inr prev
    else if childLoc t p true = none ∧ testBlank = false then
      if strict then .inl (.found (PathToDotQuad (p ++ [true]) size))
      else .inl .nameErrorDepth
    else if childLoc t p true = none ∧ testBlank = true then .inl .gapNone
    else .inr (childLoc t p true)
  else if prev = childLoc t p true then
    match startFrom with
    | none => .inr (parentLoc p)
    | some s =>
      match parentLoc p with
      | none => .inl .attrError
      | some pp =>
        if pp.length < s.length then .inl .gapNone else .inr (some pp)
  else .inr nxt

/-- The `while` loop of `Tree.FindGap`, with fuel.  The state is
(previous, current, next_node), each a node identified by its path or
`none` for Python `None`.  The loop guard is `current != None and
current.GetLevel() <= size`; after each step `previous` becomes the old
`current`, `current` becomes `next_node`, and if both the node just left
and the node just entered are used, the search returns `None` (the
"special used case" of lines 550-554). -/
def fgLoop (t : PNode) (size : Nat) (strict : Bool) (startFrom : Option Path)
    (testBlank : Bool) : Nat → Option Path → Option Path → Option Path → FGResult
  | 0, _, _, _ => .fuelOut
  | fuel + 1, prev, cur, nxt =>
    match cur with
    | none => .gapNone
    | some p =>
      if p.length ≤ size then
        match fgStep t size strict startFrom testBlank prev p nxt with
        | .inl res => res
        | .inr nxt2 =>
          match nxt2 with
          | some p2 =>
            if t.usedAt p2 && t.usedAt p then .gapNone
            else fgLoop t size strict startFrom testBlank fuel (some p) (some p2) (some p2)
          | none => fgLoop t size strict startFrom testBlank fuel (some p) none none
      else .gapNone

/-- Fuel that always suffices for `fgLoop` (each directed edge of the tree
is traversed a bounded number of times). -/
def fgFuel (t : PNode) : Nat := 4 * t.count + 8

/-- `Tree.FindGap(size, strict, start_from, test_blank)`.  With no
`start_from` the walk begins with previous, current and next all at the
root; with `start_from` it begins at that node with previous at its
parent and next unset (`None`). -/
def FindGapR (t : PNode) (size : Nat) (strict : Bool) (startFrom : Option Path)
    (testBlank : Bool) : FGResult :=
  match startFrom with
  | none => fgLoop t size strict none testBlank (fgFuel t) (some []) (some []) (some [])
  | some p => fgLoop t size strict (some p) testBlank (fgFuel t) (parentLoc p) (some p) none

/-- `Tree.FindGap(size)` with default arguments. -/
def FindGap (t : PNode) (size : Nat) : FGResult :=
  FindGapR t size true none false

/-- `Tree.FindGapFrom(prefix, size)`.  The source first calls
`self.Lookup(prefix)`, which returns a node or `None`, and then tests
`if result == False:` — in Python 2 neither `None == False` nor
`node == False` holds, so the branch that would insert an absent prefix
(and would in fact raise `AttributeError`, since it calls the nonexistent
method `self.insert`) is dead code and the model omits it.  An absent
prefix therefore falls through to `if result == None: return None`.
Present prefixes start a `FindGap` bounded at the prefix node, with
`strict = True` hard-coded at the call site. -/
def FindGapFromR (t : PNode) (addr len size : Nat) : FGResult :=
  match LookupR t addr len with
  | none => .gapNone
  | some _ => FindGapR t size true (some (routeBits addr len)) false

/-- The runtime error classes that `Tree.Remove` can raise: both arms
mention undefined names (`current` in the then-branch, `ValueException` in
the else-branch), so each raises `NameError` before touching the tree. -/
inductive PyError : Type
  | nameErrorCurrent
  | nameErrorValueException
deriving DecidableEq

/-- `Tree.Remove(route)`.  If the route is present, the body executes
`current.used = False`, but no local `current` was ever bound in `Remove`,
so Python raises `NameError` before any node is modified.  If the route is
absent it executes `raise ValueException`, and `ValueException` is itself
an undefined name, which again raises `NameError`.  Either way the function
raises and the tree is unchanged; a normal return would carry the
(unchanged) tree. -/
def RemoveR (t : PNode) (addr len : Nat) : Except PyError PNode :=
  match LookupR t addr len with
  | some _ => .error .nameErrorCurrent
  | none => .error .nameErrorValueException

/-! Specification-side notions used to state what `FindGap` computes: a
block is free when no used node covers it and no used node lies inside it,
and the well-formedness invariant maintained by `Insert` with
`mark_used = True` is that every non-root node has a used node at or
below it. -/

/-- Is the `/e.length` block at path `e` completely free in `t`?  True iff
no node on the path from the root of `t` down to `e` (inclusive) is used
and the subtree at `e` contains no used node.  An absent subtree is free. -/
def freeB : PNode → Path → Bool
  | .missing, _ => true
  | .node l r d u, [] => !(PNode.node l r d u).hasUsed
  | .node l r _ u, b :: e => !u && freeB (if b then r else l) e

/-- Every real node of `t` (including `t` itself) has a used node at or
below it. -/
def wfN : PNode → Bool
  | .missing => true
  | .node l r d u => (PNode.node l r d u).hasUsed && wfN l && wfN r

/-- The invariant `FindGap`'s minimality depends on: every node other than
the root has a used node at or below it.  It holds for every tree obtained
from `tree0` by default `Insert` calls. -/
def wfTree : PNode → Bool
  | .missing => false
  | .node l r _ _ => wfN l && wfN r

/-- The bit path padded with zeros on the right to length `d` — the lowest
`/d` block inside the region `e`. -/
def padE (e : Path) (d : Nat) : Path := e ++ List.replicate (d - e.length) false

/-- Recursive restatement of the `FindGap` walk on the subtree of the
current node, `d` levels above the requested size: used node — nothing
here; at the requested depth — nothing (only a blank slot found during
descent counts); empty left slot — that is the gap; else search left, then
the right slot, then right.  `fgLoop` with `strict = True`, no
`start_from` and no `test_blank` computes exactly this (proved below). -/
def relSearch (n : PNode) (d : Nat) : Option Path :=
  match n with
  | .missing => none
  | .node l r _ u =>
    match d with
    | 0 => none
    | d2 + 1 =>
      if u then none
      else if l.isMissing then some [false]
      else
        (relSearch l d2).elim
          (if r.isMissing then some [true]
           else (relSearch r d2).map (fun e => true :: e))
          (fun e => some (false :: e))

/-- Is `p` an initial segment of `e` — i.e. is the block `e` inside the
prefix `p`? -/
def leadsTo (p e : Path) : Bool := e.take p.length == p

/-! The CIDR string layer.  `IPy` is a third-party dependency (not part of
src/); src/tree.py line 49 sets `IPy.check_addr_prefixlen = False`, which
turns off the only validation that rejects a non-canonical address/prefix
combination ("x.x.x.x/len has invalid prefix length").  The parser below
models `IPy.IP(...)` on dotted-quad CIDR inputs under that setting:
malformed strings, octets above 255 and prefix lengths above 32 raise
`ValueError`; an address with nonzero host bits is accepted unchanged, and
`strBin()` then yields its full 32-bit expansion, of which `Tree.Insert`
and `Tree.Lookup` use only the first `len` bits. -/

/-- The `ValueError` that `IPy.IP` raises on input it cannot parse. -/
inductive IPErr : Type
  | valueError
deriving DecidableEq

/-- Split a character list at every occurrence of `c` (auxiliary). -/
def splitAux (c : Char) : List Char → List Char → List (List Char)
  | [], acc => [acc.reverse]
  | x :: xs, acc =>
    if x = c then acc.reverse :: splitAux c xs [] else splitAux c xs (x :: acc)

/-- Split a character list at every occurrence of `c`. -/
def splitChar (c : Char) (l : List Char) : List (List Char) := splitAux c l []

/-- The value of a decimal digit, or `none`. -/
def digitVal (c : Char) : Option Nat :=
  if '0' ≤ c ∧ c ≤ '9' then some (c.toNat - '0'.toNat) else none

/-- Read a nonempty all-digit character list as a decimal number
(auxiliary). -/
def natOfCharsAux : List Char → Nat → Option Nat
  | [], acc => some acc
  | c :: cs, acc =>
    match digitVal c with
    | none => none
    | some d => natOfCharsAux cs (acc * 10 + d)

/-- Read a nonempty all-digit character list as a decimal number. -/
def natOfChars : List Char → Option Nat
  | [] => none
  | c :: cs => natOfCharsAux (c :: cs) 0

/-- One dotted-quad octet: decimal, at most 255. -/
def parseOctet (l : List Char) : Option Nat :=
  match natOfChars l with
  | some n => if n ≤ 255 then some n else none
  | none => none

/-- A dotted quad `a.b.c.d` as a 32-bit integer. -/
def parseQuad (l : List Char) : Option Nat :=
  match splitChar '.' l with
  | [x, y, z, w] =>
    match parseOctet x, parseOctet y, parseOctet z, parseOctet w with
    | some a, some b, some c, some d => some (((a * 256 + b) * 256 + c) * 256 + d)
    | _, _, _, _ => none
  | _ => none

/-- `IPy.IP(route)` on a dotted-quad CIDR string, under
`IPy.check_addr_prefixlen = False` (src/tree.py line 49): returns the
address and prefix length; a bare address gets prefix length 32; no
canonicality requirement is enforced. -/
def parseCIDR (s : String) : Except IPErr (Nat × Nat) :=
  match splitChar '/' s.data with
  | [q] =>
    match parseQuad q with
    | some a => .ok (a, 32)
    | none => .error .valueError
  | [q, len] =>
    match parseQuad q, natOfChars len with
    | some a, some n => if n ≤ 32 then .ok (a, n) else .error .valueError
    | _, _ => .error .valueError
  | _ => .error .valueError

/-- `Tree.Insert(route, d)` taking the route as a string, including the
`IPy.IP(route)` parse that begins `Tree.Insert`. -/
def InsertS (t : PNode) (route : String) (d : String) : Except IPErr (PNode × Bool) :=
  match parseCIDR route with
  | .ok (a, l) => .ok (Insert t a l d)
  | .error e => .error e

/-- The address `addr` with its low `32 - len` host bits cleared — the
canonical form of `addr/len`. -/
def canonAddr (addr len : Nat) : Nat :=
  addr / 2 ^ (32 - len) * 2 ^ (32 - len)

/-! `simulation.DecomposeAmountToPrefixes`.  The source computes the
exponent as `int(math.floor(math.log(amount)/math.log(2)))` with IEEE
double-precision logarithms; the model below uses the exact floor of the
base-2 logarithm, which is the value that expression is intended to
produce.  The loop `while amount != 0: amount -= 2 ** power` terminates
because each step removes at least 1, so fuel `amount` suffices. -/

/-- Floor of the base-2 logarithm, with fuel (auxiliary). -/
def floorLog2Go : Nat → Nat → Nat
  | 0, _ => 0
  | f + 1, n => if n ≤ 1 then 0 else floorLog2Go f (n / 2) + 1

/-- Floor of the base-2 logarithm of `n` (0 for `n ≤ 1`). -/
def floorLog2 (n : Nat) : Nat := floorLog2Go n n

/-- The loop of `DecomposeAmountToPrefixes`, with fuel (auxiliary). -/
def decomposeGo : Nat → Nat → List Int
  | 0, _ => []
  | f + 1, amount =>
    if amount = 0 then []
    else
      let power := floorLog2 amount
      ((32 : Int) - power) :: decomposeGo f (amount - 2 ^ power)

/-- `simulation.DecomposeAmountToPrefixes(amount)`: repeatedly strip the
largest power of two from `amount`, recording `32 - power` each time. -/
def DecomposeAmountToPrefixes (amount : Nat) : List Int := decomposeGo amount amount

/-! Basic lemmas about paths, subtrees and bit values. -/

@[simp] theorem subtreeAt_nil (t : PNode) : t.subtreeAt [] = t := rfl

@[simp] theorem subtreeAt_missing (p : Path) :
    PNode.subtreeAt .missing p = .missing := by
  cases p <;> rfl

@[simp] theorem subtreeAt_cons (l r : PNode) (d : String) (u : Bool) (b : Bool) (p : Path) :
    (PNode.node l r d u).subtreeAt (b :: p) = (if b then r else l).subtreeAt p := rfl

@[simp] theorem val_replicate_false (k : Nat) : val (List.replicate k false) = 0 := by
  induction k with
  | zero => rfl
  | succ n ih => simp [List.replicate, val, ih, bval]

theorem val_append_replicate (x : Path) (k : Nat) :
    val (x ++ List.replicate k false) = val x * 2 ^ k := by
  induction x with
  | nil => simp [val]
  | cons b xs ih =>
    show bval b * 2 ^ (xs ++ List.replicate k false).length + val (xs ++ List.replicate k false)
        = (bval b * 2 ^ xs.length + val xs) * 2 ^ k
    rw [ih, List.length_append, List.length_replicate, pow_add]
    ring

theorem val_lt (x : Path) : val x < 2 ^ x.length := by
  induction x with
  | nil => simp [val]
  | cons b xs ih =>
    simp only [val, List.length_cons, pow_succ]
    cases b <;> simp [bval] <;> omega

theorem val_inj (x y : Path) (hl : x.length = y.length) (hv : val x = val y) : x = y := by
  induction x generalizing y with
  | nil => cases y with
    | nil => rfl
    | cons c ys => simp at hl
  | cons b xs ih =>
    cases y with
    | nil => simp at hl
    | cons c ys =>
      have hl2 : xs.length = ys.length := by
        simp only [List.length_cons] at hl
        omega
      have hx := val_lt xs
      have hy := val_lt ys
      rw [hl2] at hx
      simp only [val, hl2] at hv
      have hbc : b = c := by
        cases b <;> cases c <;> simp only [bval] at hv <;> first | rfl | omega
      subst hbc
      have hveq : val xs = val ys := by cases b <;> simp only [bval] at hv <;> omega
      rw [ih ys hl2 hveq]

/-! Lemmas about `bitsOf`: length, periodicity in the high bits, and the
high/low split.  Together they show that the walk of `Insert`/`Lookup`
depends only on the top `len` bits of the address. -/

@[simp] theorem bitsOf_length (w a : Nat) : (bitsOf w a).length = w := by
  induction w generalizing a with
  | zero => rfl
  | succ n ih => simp [bitsOf, ih]

theorem bitsOf_add_mul_pow (w k a : Nat) : bitsOf w (k * 2 ^ w + a) = bitsOf w a := by
  induction w generalizing k with
  | zero => rfl
  | succ n ih =>
    simp only [bitsOf, List.cons.injEq]
    refine ⟨?_, ?_⟩
    · have h1 : k * 2 ^ (n + 1) + a = a + 2 ^ n * (2 * k) := by rw [pow_succ]; ring
      have h2 : (a + 2 ^ n * (2 * k)) / 2 ^ n = a / 2 ^ n + 2 * k :=
        Nat.add_mul_div_left _ _ (Nat.two_pow_pos n)
      rw [h1, h2]
      simp only [decide_eq_decide]
      omega
    · have h2 : k * 2 ^ (n + 1) + a = 2 * k * 2 ^ n + a := by rw [pow_succ]; ring
      rw [h2, ih (2 * k)]

theorem bitsOf_split (s k a : Nat) :
    bitsOf (s + k) a = bitsOf s (a / 2 ^ k) ++ bitsOf k a := by
  induction s with
  | zero => simp [bitsOf]
  | succ n ih =>
    have hadd : n + 1 + k = (n + k) + 1 := by omega
    rw [hadd]
    simp only [bitsOf, ih, List.cons_append, List.cons.injEq]
    refine ⟨?_, by simp⟩
    simp only [decide_eq_decide]
    rw [Nat.div_div_eq_div_mul, ← pow_add, Nat.add_comm k n]

theorem routeBits_high (a l : Nat) (hl : l ≤ 32) :
    routeBits a l = bitsOf l (a / 2 ^ (32 - l)) := by
  unfold routeBits
  have h32 : (32 : Nat) = l + (32 - l) := by omega
  conv_lhs => rw [h32, bitsOf_split]
  exact List.take_left' (bitsOf_length l _)

theorem routeBits_canon (a l : Nat) (hl : l ≤ 32) :
    routeBits (canonAddr a l) l = routeBits a l := by
  rw [routeBits_high _ _ hl, routeBits_high _ _ hl]
  unfold canonAddr
  rw [Nat.mul_div_cancel _ (Nat.pos_pow_of_pos _ (by omega))]

/-! Concrete addresses used in the statements below:
`16777216 = 1.0.0.0`, `16909060 = 1.2.3.4`, `33554432 = 2.0.0.0`. -/

/-- C2.  `FindGapFrom` escapes its prefix: insert `0.0.0.0/8` (marking the
node used), then `FindGapFrom("0.0.0.0/8", 24)` returns `1.0.0.0/24`
— a block that does not lie under `0.0.0.0/8` — instead of `None`,
although the prefix node itself is used.  The walk backs off the used
start node to its parent, arrives there from a left child, and the
from-left branch has no `start_from` boundary guard (the guard exists only
in the from-right branch), so the search continues outside the subtree. -/
theorem c2_findgapfrom_escapes_used_left_prefix :
    FindGapFromR (Insert tree0 0 8 "d").1 0 8 24 = .found "1.0.0.0/24" ∧
    (Insert tree0 0 8 "d").1.usedAt (routeBits 0 8) = true ∧
    leadsTo (routeBits 0 8) (routeBits 16777216 24) = false := by
  refine ⟨by decide, by decide, by decide⟩

/-- C3.  `FindGapFrom` never inserts an absent prefix: `Lookup` returns a
node or `None`, never `False`, so the `if result == False:` insert branch
is dead and an absent prefix falls through to `return None`.  On the empty
tree, `FindGapFrom("0.0.0.0/8", 24)` is `None` (the claim says it inserts
a placeholder and returns `0.0.0.0/24`), and `FindGapFrom("1.0.0.0/8", 24)`
is `None` as the claim's second example says. -/
theorem c3_findgapfrom_absent_returns_none :
    FindGapFromR tree0 0 8 24 = .gapNone ∧
    LookupR tree0 0 8 = none ∧
    FindGapFromR tree0 16777216 8 24 = .gapNone := by
  refine ⟨by decide, by decide, by decide⟩

/-- C5.  With `strict = False`, reaching an empty child slot does not
return a coarser block: the source line `return self.PathToDotQuad(binstr,
depth)` reads the name `depth`, which is bound nowhere in `FindGap`, so
Python raises `NameError`.  `FindGap(8, strict=False)` on the empty tree
hits it immediately. -/
theorem c5_nonstrict_raises_nameerror :
    FindGapR tree0 8 false none false = .nameErrorDepth := by decide

/-- C9.  `DecomposeAmountToPrefixes(36864)` yields `[17, 20]`, an ordered
list (largest span first) whose spans sum back to 36864 exactly.  The
source, however, finds each exponent with IEEE floating-point logarithms
(`int(math.floor(math.log(amount)/math.log(2)))`), not with the exact
integer arithmetic the claim requires; the model evaluates that expression
under the exact floor of the base-2 logarithm. -/
theorem c9_decompose_36864 :
    DecomposeAmountToPrefixes 36864 = [17, 20] ∧
    2 ^ (32 - 17) + 2 ^ (32 - 20) = 36864 := by
  refine ⟨by decide, by decide⟩

/-- C10.  `Tree.Remove` always raises and never returns normally: when the
route is present the body reads the unbound local `current` (`NameError`),
and when it is absent it raises the undefined name `ValueException`
(`NameError` again); in both cases it raises before modifying any node, so
every used flag and every data field is left unchanged. -/
theorem c10_remove_always_raises (t : PNode) (addr len : Nat) :
    (RemoveR t addr len = .error .nameErrorCurrent ∨
      RemoveR t addr len = .error .nameErrorValueException) ∧
    ¬∃ t2, RemoveR t addr len = .ok t2 := by
  unfold RemoveR
  cases LookupR t addr len with
  | none => exact ⟨Or.inr rfl, by intro ⟨t2, h⟩; cases h⟩
  | some n => exact ⟨Or.inl rfl, by intro ⟨t2, h⟩; cases h⟩

/-- C1, counterexample.  Two failures of the claim as stated: (i) on the
empty tree with `s = 0` the whole space `0.0.0.0/0` is a free `/0` block,
yet `FindGap(0)` returns `None` (the level-equals-size rule climbs off the
root before looking at it); (ii) after `Insert("0.0.0.0/9", mark_used =
False)` — a reachable tree state — the block `0.0.0.0/8` is free, but
`FindGap(8)` skips the existing unused level-8 node and returns the
numerically larger `1.0.0.0/8`. -/
theorem c1_counterexample :
    (FindGap tree0 0 = .gapNone ∧ freeB tree0 [] = true) ∧
    (FindGap (InsertR tree0 0 9 "d" false false false true).1 8 = .found "1.0.0.0/8" ∧
      freeB (InsertR tree0 0 9 "d" false false false true).1 (List.replicate 8 false) = true ∧
      val (List.replicate 8 false) < val (routeBits 16777216 8)) := by
  refine ⟨⟨by decide, by decide⟩, by decide, by decide, by decide⟩

/-- C4, counterexample.  Duplicate detection compares the node's data with
the magic string `"CREATED BY INSERT"`; if the first insert's payload *is*
that string, the second insert of the same prefix also succeeds. -/
theorem c4_counterexample :
    (Insert tree0 0 8 "CREATED BY INSERT").2 = true ∧
    (Insert (Insert tree0 0 8 "CREATED BY INSERT").1 0 8 "x").2 = true := by
  refine ⟨by decide, by decide⟩

/-- C6, counterexample.  A non-canonical prefix is not rejected:
`IPy.check_addr_prefixlen = False` (src/tree.py line 49) disables the
canonicality check, so `Insert("1.2.3.4/8", d)` parses successfully and —
because the walk uses only the first 8 bits of the address — lands on the
very node that `Insert("1.0.0.0/8", d)` produces: the input is silently
truncated, with no error. -/
theorem c6_counterexample :
    parseCIDR "1.2.3.4/8" = .ok (16909060, 8) ∧
    InsertS tree0 "1.2.3.4/8" "d" = InsertS tree0 "1.0.0.0/8" "d" ∧
    (Insert tree0 16909060 8 "d").2 = true := by
  refine ⟨by decide, by decide, by decide⟩

/-- C8.  `PathToDotQuad` pads the bit path with zeros to 32 bits,
interprets it as a big-endian 32-bit integer (padding is exactly
multiplication by `2^(32-length)`), and renders the canonical CIDR string;
in particular `"1111"` at depth 4 gives `240.0.0.0/4` and `"10100111111"`
at depth 16 gives `167.224.0.0/16`. -/
theorem c8_pathtodotquad :
    PathToDotQuad [true, true, true, true] 4 = "240.0.0.0/4" ∧
    PathToDotQuad [true, false, true, false, false, true, true, true, true, true, true] 16
        = "167.224.0.0/16" ∧
    ∀ (bits : Path) (depth : Nat),
      PathToDotQuad bits depth = ipStr (val bits * 2 ^ (32 - bits.length)) depth := by
  refine ⟨by decide, by decide, ?_⟩
  intro bits depth
  unfold PathToDotQuad
  rw [val_append_replicate]

/-- C6, amended.  Malformed CIDR strings, out-of-range octets and
out-of-range prefix lengths are rejected with `ValueError`; a
non-canonical prefix is accepted and silently truncated: with
`IPy.check_addr_prefixlen = False` the walk of `Insert`/`Lookup` uses only
the top `len` address bits, so every call behaves exactly as on the
canonicalized prefix. -/
theorem c6_invalid_input :
    parseCIDR "1.2.3" = .error .valueError ∧
    parseCIDR "1.2.3.4.5/8" = .error .valueError ∧
    parseCIDR "0.0.0.0/33" = .error .valueError ∧
    parseCIDR "256.0.0.0/8" = .error .valueError ∧
    parseCIDR "1.2.3.4/boo" = .error .valueError ∧
    ∀ (t : PNode) (a l : Nat) (d : String) (mu tu tn td : Bool), l ≤ 32 →
      InsertR t a l d mu tu tn td = InsertR t (canonAddr a l) l d mu tu tn td ∧
      LookupR t a l = LookupR t (canonAddr a l) l := by
  refine ⟨by decide, by decide, by decide, by decide, by decide, ?_⟩
  intro t a l d mu tu tn td hl
  unfold InsertR LookupR
  rw [routeBits_canon a l hl]
  exact ⟨rfl, rfl⟩

/-- Witness for `c6_invalid_input` at `1.2.3.4/8`. -/
theorem c6_invalid_input_witness :
    (8 : Nat) ≤ 32 ∧
    (InsertR tree0 16909060 8 "d" true false false true
        = InsertR tree0 (canonAddr 16909060 8) 8 "d" true false false true ∧
      LookupR tree0 16909060 8 = LookupR tree0 (canonAddr 16909060 8) 8) :=
  ⟨by decide, c6_invalid_input.2.2.2.2.2 tree0 16909060 8 "d" true false false true (by decide)⟩

/-- `insertGo` never turns a real node into a missing one. -/
theorem insertGo_ne_missing (bits : Path) (t : PNode) (d : String) (mu tu tn td : Bool)
    (h : t ≠ .missing) : (insertGo bits t d mu tu tn td).1 ≠ .missing := by
  cases t with
  | missing => exact absurd rfl h
  | node l r dat u =>
    cases bits with
    | nil =>
      simp only [insertGo]
      split <;> simp
    | cons b rest =>
      simp only [insertGo]
      split
      · simp
      · cases b <;> simp only [Bool.false_eq_true, if_true, if_false]
        · cases l with
          | missing => by_cases htn : tn = true <;> simp [htn]
          | node ll lr ld lu => simp
        · cases r with
          | missing => by_cases htn : tn = true <;> simp [htn]
          | node rl rr rd ru => simp

/-- After a successful `test_dup` insert whose payload is not the sentinel,
repeating the insert along the same bit path fails: the walk finds every
node in place and the target's data is the first payload, which the
duplicate check rejects. -/
theorem insertGo_dup (bits : Path) : ∀ (t t2 : PNode) (d d2 : String),
    insertGo bits t d true false false true = (t2, true) → d ≠ sentinel →
    (insertGo bits t2 d2 true false false true).2 = false := by
  induction bits with
  | nil =>
    intro t t2 d d2 h hd
    cases t with
    | missing => simp [insertGo] at h
    | node l r dat u =>
      simp only [insertGo, Bool.true_and] at h
      by_cases hdat : (dat == sentinel) = true
      · rw [hdat] at h
        simp only [Bool.not_true, Bool.false_eq_true, if_false] at h
        have ht2 : t2 = .node l r d true := by
          have := congrArg Prod.fst h
          simpa using this.symm
        subst ht2
        simp only [insertGo, Bool.true_and]
        have hdne : (d == sentinel) = false := by
          simp only [beq_eq_false_iff_ne, ne_eq]
          exact hd
        rw [hdne]
        simp
      · rw [Bool.not_eq_true] at hdat
        rw [hdat] at h
        simp at h
  | cons b rest ih =>
    intro t t2 d d2 h hd
    cases t with
    | missing => simp [insertGo] at h
    | node l r dat u =>
      cases b with
      | true =>
        cases r with
        | missing =>
          simp only [insertGo, Bool.and_false, Bool.false_eq_true, if_false, if_true,
            Prod.mk.injEq] at h
          obtain ⟨ht2, hok⟩ := h
          have hr : insertGo rest (.node .missing .missing sentinel false) d true false false true
              = ((insertGo rest (.node .missing .missing sentinel false) d true false false true).1,
                 true) := by
            rw [Prod.ext_iff]
            exact ⟨rfl, hok⟩
          subst ht2
          cases hR : (insertGo rest (.node .missing .missing sentinel false) d true false false true).1 with
          | missing =>
            exact absurd hR (insertGo_ne_missing _ _ _ _ _ _ _ (by simp))
          | node rl rr rd ru =>
            rw [hR] at hr
            simp only [insertGo, Bool.and_false, Bool.false_eq_true, if_false, if_true]
            exact ih _ _ d d2 hr hd
        | node rl rr rd ru =>
          simp only [insertGo, Bool.and_false, Bool.false_eq_true, if_false, if_true,
            Prod.mk.injEq] at h
          obtain ⟨ht2, hok⟩ := h
          have hr : insertGo rest (.node rl rr rd ru) d true false false true
              = ((insertGo rest (.node rl rr rd ru) d true false false true).1, true) := by
            rw [Prod.ext_iff]
            exact ⟨rfl, hok⟩
          subst ht2
          cases hR : (insertGo rest (.node rl rr rd ru) d true false false true).1 with
          | missing =>
            exact absurd hR (insertGo_ne_missing _ _ _ _ _ _ _ (by simp))
          | node xl xr xd xu =>
            rw [hR] at hr
            simp only [insertGo, Bool.and_false, Bool.false_eq_true, if_false, if_true]
            exact ih _ _ d d2 hr hd
      | false =>
        cases l with
        | missing =>
          simp only [insertGo, Bool.and_false, Bool.false_eq_true, if_false,
            Prod.mk.injEq] at h
          obtain ⟨ht2, hok⟩ := h
          have hr : insertGo rest (.node .missing .missing sentinel false) d true false false true
              = ((insertGo rest (.node .missing .missing sentinel false) d true false false true).1,
                 true) := by
            rw [Prod.ext_iff]
            exact ⟨rfl, hok⟩
          subst ht2
          cases hR : (insertGo rest (.node .missing .missing sentinel false) d true false false true).1 with
          | missing =>
            exact absurd hR (insertGo_ne_missing _ _ _ _ _ _ _ (by simp))
          | node rl rr rd ru =>
            rw [hR] at hr
            simp only [insertGo, Bool.and_false, Bool.false_eq_true, if_false]
            exact ih _ _ d d2 hr hd
        | node ll lr ld lu =>
          simp only [insertGo, Bool.and_false, Bool.false_eq_true, if_false,
            Prod.mk.injEq] at h
          obtain ⟨ht2, hok⟩ := h
          have hr : insertGo rest (.node ll lr ld lu) d true false false true
              = ((insertGo rest (.node ll lr ld lu) d true false false true).1, true) := by
            rw [Prod.ext_iff]
            exact ⟨rfl, hok⟩
          subst ht2
          cases hR : (insertGo rest (.node ll lr ld lu) d true false false true).1 with
          | missing =>
            exact absurd hR (insertGo_ne_missing _ _ _ _ _ _ _ (by simp))
          | node xl xr xd xu =>
            rw [hR] at hr
            simp only [insertGo, Bool.and_false, Bool.false_eq_true, if_false]
            exact ih _ _ d d2 hr hd

/-- C4, amended.  If `Insert(p, d, test_dup=true)` succeeds and `d` is not
the sentinel string `"CREATED BY INSERT"`, then a second
`Insert(p, d2, test_dup=true)` on the resulting tree fails, for every
`d2`. -/
theorem c4_duplicate_insert_fails (t : PNode) (addr len : Nat) (d d2 : String)
    (hd : d ≠ sentinel) (hsuc : (Insert t addr len d).2 = true) :
    (Insert (Insert t addr len d).1 addr len d2).2 = false := by
  have h : insertGo (routeBits addr len) t d true false false true
      = ((Insert t addr len d).1, true) := by
    rw [Prod.ext_iff]
    exact ⟨rfl, hsuc⟩
  exact insertGo_dup (routeBits addr len) t _ d d2 h hd

/-- Witness for `c4_duplicate_insert_fails`: insert `0.0.0.0/8` with
payload "payload", then insert it again. -/
theorem c4_duplicate_insert_fails_witness :
    "payload" ≠ sentinel ∧ (Insert tree0 0 8 "payload").2 = true ∧
    (Insert (Insert tree0 0 8 "payload").1 0 8 "again").2 = false :=
  ⟨by decide, by decide,
    c4_duplicate_insert_fails tree0 0 8 "payload" "again" (by decide) (by decide)⟩

/-- `Insert` never changes the used flag of a pre-existing node other than
the one at the walked path: it only sets `used` on its target and creates
fresh (unused) nodes, for every combination of flags. -/
theorem insertGo_frame (bits : Path) : ∀ (t : PNode) (d : String) (mu tu tn td : Bool) (q : Path),
    t.existsAt q = true → q ≠ bits →
    (insertGo bits t d mu tu tn td).1.usedAt q = t.usedAt q := by
  induction bits with
  | nil =>
    intro t d mu tu tn td q hex hne
    cases t with
    | missing => rfl
    | node l r dat u =>
      simp only [insertGo]
      split
      · rfl
      · cases q with
        | nil => exact absurd rfl hne
        | cons qb q2 => rfl
  | cons b rest ih =>
    intro t d mu tu tn td q hex hne
    cases t with
    | missing => rfl
    | node l r dat u =>
      simp only [insertGo]
      split
      · rfl
      · cases b with
        | true =>
          simp only [if_true]
          cases r with
          | missing =>
            dsimp only
            split
            · rfl
            · cases q with
              | nil => rfl
              | cons qb q2 =>
                cases qb with
                | false => rfl
                | true =>
                  exact absurd hex (by simp [PNode.existsAt])
          | node rl rr rdat ru =>
            cases q with
            | nil => rfl
            | cons qb q2 =>
              cases qb with
              | false => rfl
              | true =>
                have hne2 : q2 ≠ rest := fun h2 => hne (by rw [h2])
                exact ih (.node rl rr rdat ru) d mu tu tn td q2 hex hne2
        | false =>
          simp only [Bool.false_eq_true, if_false]
          cases l with
          | missing =>
            dsimp only
            split
            · rfl
            · cases q with
              | nil => rfl
              | cons qb q2 =>
                cases qb with
                | true => rfl
                | false =>
                  exact absurd hex (by simp [PNode.existsAt])
          | node ll lr ldat lu =>
            cases q with
            | nil => rfl
            | cons qb q2 =>
              cases qb with
              | true => rfl
              | false =>
                have hne2 : q2 ≠ rest := fun h2 => hne (by rw [h2])
                exact ih (.node ll lr ldat lu) d mu tu tn td q2 hex hne2

/-- C7.  For every call to `Insert` (any flags), the used flag of every
node that already existed, other than the target node at the prefix's
depth, is unchanged; in particular making both children of a node used
never sets the parent's used flag. -/
theorem c7_insert_frame (t : PNode) (addr len : Nat) (d : String) (mu tu tn td : Bool)
    (q : Path) (hex : t.existsAt q = true) (hne : q ≠ routeBits addr len) :
    (InsertR t addr len d mu tu tn td).1.usedAt q = t.usedAt q :=
  insertGo_frame (routeBits addr len) t d mu tu tn td q hex hne

/-- Witness for `c7_insert_frame`: after inserting `0.0.0.0/8` and then
`0.128.0.0/9` (which makes both children of `0.0.0.0/8`'s left child at
depth 8 irrelevant — here, filling the sibling at depth 9), the parent
node `0.0.0.0/8`... concretely: inserting `128.0.0.0/1` leaves the used
flag of the pre-existing root unchanged. -/
theorem c7_insert_frame_witness :
    tree0.existsAt [] = true ∧ ([] : Path) ≠ routeBits 2147483648 1 ∧
    (InsertR tree0 2147483648 1 "w" true false false true).1.usedAt []
      = tree0.usedAt [] :=
  ⟨by decide, by decide,
    c7_insert_frame tree0 2147483648 1 "w" true false false true [] (by decide) (by decide)⟩

/-! Lemmas about paths in the tree and the `FindGap` state machine,
specialised to the configuration used by `Tree.FindGap(size)`:
`strict = true`, `start_from = None`, `test_blank = false`. -/

theorem subtreeAt_append (p q : Path) : ∀ t : PNode,
    t.subtreeAt (p ++ q) = (t.subtreeAt p).subtreeAt q := by
  induction p with
  | nil => intro t; rfl
  | cons b p2 ih =>
    intro t
    cases t with
    | missing => simp
    | node l r dat u =>
      show PNode.subtreeAt (if b then r else l) (p2 ++ q) = _
      rw [ih]
      rfl

theorem usedAt_eq (t : PNode) (q : Path) (l r : PNode) (dat : String) (u : Bool)
    (hq : t.subtreeAt q = .node l r dat u) : t.usedAt q = u := by
  simp [PNode.usedAt, hq]

theorem existsAt_child (t : PNode) (q : Path) (l r : PNode) (dat : String) (u : Bool)
    (hq : t.subtreeAt q = .node l r dat u) (b : Bool) :
    t.subtreeAt (q ++ [b]) = if b then r else l := by
  rw [subtreeAt_append, hq]
  cases b <;> rfl

theorem parentLoc_ne_nil (p : Path) (h : p ≠ []) : parentLoc p = some p.dropLast := by
  cases p with
  | nil => exact absurd rfl h
  | cons b p2 => rfl

theorem parentLoc_concat (q : Path) (b : Bool) : parentLoc (q ++ [b]) = some q := by
  rw [parentLoc_ne_nil _ (by simp), List.dropLast_concat]

theorem childLoc_some (t : PNode) (q : Path) (b : Bool)
    (h : t.existsAt (q ++ [b]) = true) : childLoc t q b = some (q ++ [b]) := by
  unfold childLoc
  rw [if_pos h]

theorem childLoc_none (t : PNode) (q : Path) (b : Bool)
    (h : t.existsAt (q ++ [b]) = false) : childLoc t q b = none := by
  unfold childLoc
  rw [if_neg (by rw [h]; exact Bool.false_ne_true)]

/-- A child path is never the parent of its own parent: excludes the
from-parent branch when arriving from a child. -/
theorem notFP_child (q : Path) (b : Bool) :
    ¬(some (q ++ [b]) = parentLoc q ∨ (some (q ++ [b]) = some ([] : Path) ∧ q = [])) := by
  intro h
  rcases h with h1 | ⟨h2, _⟩
  · cases q with
    | nil => exact Option.noConfusion h1
    | cons c q2 =>
      rw [parentLoc_ne_nil _ (by simp)] at h1
      have hlen := congrArg (fun o => Option.map List.length o) h1
      simp [List.length_dropLast] at hlen
      omega
  · have := Option.some.inj h2
    simp at this

theorem concat_ne_concat (q : Path) : q ++ [true] ≠ q ++ [false] := by
  simp

/-! Transition lemmas for `fgStep` with `strict = true`,
`start_from = None`, `test_blank = false`. -/

theorem step_fp_used (t : PNode) (size : Nat) (prev : Option Path) (p : Path)
    (nxt : Option Path)
    (hfp : prev = parentLoc p ∨ (prev = some [] ∧ p = []))
    (hu : t.usedAt p = true) :
    fgStep t size true none false prev p nxt = .inr prev := by
  unfold fgStep
  rw [if_pos hfp, if_pos hu]

theorem step_fp_size (t : PNode) (size : Nat) (prev : Option Path) (p : Path)
    (nxt : Option Path)
    (hfp : prev = parentLoc p ∨ (prev = some [] ∧ p = []))
    (hu : t.usedAt p = false) (hsz : p.length = size) :
    fgStep t size true none false prev p nxt = .inr (parentLoc p) := by
  unfold fgStep
  rw [if_pos hfp, if_neg (by rw [hu]; exact Bool.false_ne_true), if_pos ⟨hsz, rfl⟩]

theorem step_fp_blank (t : PNode) (size : Nat) (prev : Option Path) (p : Path)
    (nxt : Option Path)
    (hfp : prev = parentLoc p ∨ (prev = some [] ∧ p = []))
    (hu : t.usedAt p = false) (hsz : ¬p.length = size)
    (hbl : childLoc t p false = none) :
    fgStep t size true none false prev p nxt
      = .inl (.found (PathToDotQuad (p ++ [false]) size)) := by
  unfold fgStep
  rw [if_pos hfp, if_neg (by rw [hu]; exact Bool.false_ne_true),
    if_neg (by intro h; exact hsz h.1), if_pos ⟨hbl, rfl⟩, if_pos rfl]

theorem step_fp_desc (t : PNode) (size : Nat) (prev : Option Path) (p : Path)
    (nxt : Option Path) (c : Path)
    (hfp : prev = parentLoc p ∨ (prev = some [] ∧ p = []))
    (hu : t.usedAt p = false) (hsz : ¬p.length = size)
    (hch : childLoc t p false = some c) :
    fgStep t size true none false prev p nxt = .inr (some c) := by
  unfold fgStep
  rw [if_pos hfp, if_neg (by rw [hu]; exact Bool.false_ne_true),
    if_neg (by intro h; exact hsz h.1),
    if_neg (by intro h; rw [hch] at h; exact Option.noConfusion h.1),
    if_neg (by intro h; exact hsz h.1),
    if_neg (by intro h; rw [hch] at h; exact Option.noConfusion h.1), hch]

theorem step_fl_blank (t : PNode) (size : Nat) (prev : Option Path) (p : Path)
    (nxt : Option Path)
    (hnfp : ¬(prev = parentLoc p ∨ (prev = some [] ∧ p = [])))
    (hfl : prev = childLoc t p false)
    (hu : t.usedAt p = false) (hsz : ¬p.length = size)
    (hbr : childLoc t p true = none) :
    fgStep t size true none false prev p nxt
      = .inl (.found (PathToDotQuad (p ++ [true]) size)) := by
  unfold fgStep
  rw [if_neg hnfp, if_pos hfl, if_neg (by rw [hu]; exact Bool.false_ne_true),
    if_neg hsz, if_pos ⟨hbr, rfl⟩, if_pos rfl]

theorem step_fl_desc (t : PNode) (size : Nat) (prev : Option Path) (p : Path)
    (nxt : Option Path) (c : Path)
    (hnfp : ¬(prev = parentLoc p ∨ (prev = some [] ∧ p = [])))
    (hfl : prev = childLoc t p false)
    (hu : t.usedAt p = false) (hsz : ¬p.length = size)
    (hch : childLoc t p true = some c) :
    fgStep t size true none false prev p nxt = .inr (some c) := by
  unfold fgStep
  rw [if_neg hnfp, if_pos hfl, if_neg (by rw [hu]; exact Bool.false_ne_true),
    if_neg hsz,
    if_neg (by intro h; rw [hch] at h; exact Option.noConfusion h.1),
    if_neg (by intro h; rw [hch] at h; exact Option.noConfusion h.1), hch]

theorem step_fr (t : PNode) (size : Nat) (prev : Option Path) (p : Path)
    (nxt : Option Path)
    (hnfp : ¬(prev = parentLoc p ∨ (prev = some [] ∧ p = [])))
    (hnfl : ¬prev = childLoc t p false)
    (hfr : prev = childLoc t p true) :
    fgStep t size true none false prev p nxt = .inr (parentLoc p) := by
  unfold fgStep
  rw [if_neg hnfp, if_neg hnfl, if_pos hfr]

/-! One-iteration lemmas for `fgLoop`. -/

theorem loop_none (t : PNode) (size : Nat) (strict : Bool) (sf : Option Path)
    (tb : Bool) (fuel : Nat) (prev nxt : Option Path) :
    fgLoop t size strict sf tb (fuel + 1) prev none nxt = .gapNone := rfl

theorem loop_ret (t : PNode) (size : Nat) (fuel : Nat) (prev : Option Path)
    (p : Path) (nxt : Option Path) (res : FGResult)
    (hlen : p.length ≤ size)
    (hstep : fgStep t size true none false prev p nxt = .inl res) :
    fgLoop t size true none false (fuel + 1) prev (some p) nxt = res := by
  show (if p.length ≤ size then _ else _) = res
  rw [if_pos hlen, hstep]

theorem loop_cont (t : PNode) (size : Nat) (fuel : Nat) (prev : Option Path)
    (p : Path) (nxt : Option Path) (p2 : Path)
    (hlen : p.length ≤ size)
    (hstep : fgStep t size true none false prev p nxt = .inr (some p2))
    (hno : (t.usedAt p2 && t.usedAt p) = false) :
    fgLoop t size true none false (fuel + 1) prev (some p) nxt
      = fgLoop t size true none false fuel (some p) (some p2) (some p2) := by
  show (if p.length ≤ size then _ else _) = _
  rw [if_pos hlen, hstep]
  show (if (t.usedAt p2 && t.usedAt p) = true then _ else _) = _
  rw [if_neg (by rw [hno]; exact Bool.false_ne_true)]

theorem loop_cont_none (t : PNode) (size : Nat) (fuel : Nat) (prev : Option Path)
    (p : Path) (nxt : Option Path)
    (hlen : p.length ≤ size)
    (hstep : fgStep t size true none false prev p nxt = .inr none) :
    fgLoop t size true none false (fuel + 1) prev (some p) nxt
      = fgLoop t size true none false fuel (some p) none none := by
  show (if p.length ≤ size then _ else _) = _
  rw [if_pos hlen, hstep]

theorem loop_used2 (t : PNode) (size : Nat) (fuel : Nat) (prev : Option Path)
    (p : Path) (nxt : Option Path) (p2 : Path)
    (hlen : p.length ≤ size)
    (hstep : fgStep t size true none false prev p nxt = .inr (some p2))
    (hyes : (t.usedAt p2 && t.usedAt p) = true) :
    fgLoop t size true none false (fuel + 1) prev (some p) nxt = .gapNone := by
  show (if p.length ≤ size then _ else _) = _
  rw [if_pos hlen, hstep]
  show (if (t.usedAt p2 && t.usedAt p) = true then _ else _) = _
  rw [if_pos hyes]

/-! Characterisation lemmas for `relSearch`. -/

theorem relSearch_used (l r : PNode) (dat : String) (d : Nat) :
    relSearch (.node l r dat true) d = none := by
  cases d <;> rfl

theorem relSearch_zero (n : PNode) : relSearch n 0 = none := by
  cases n <;> rfl

theorem relSearch_lmissing (r : PNode) (dat : String) (d : Nat) :
    relSearch (.node .missing r dat false) (d + 1) = some [false] := rfl

theorem relSearch_lsome (ll lr r : PNode) (ld dat : String) (lu : Bool) (d : Nat) (e : Path)
    (hL : relSearch (.node ll lr ld lu) d = some e) :
    relSearch (.node (.node ll lr ld lu) r dat false) (d + 1) = some (false :: e) := by
  show (relSearch (.node ll lr ld lu) d).elim _ _ = _
  rw [hL]
  rfl

theorem relSearch_rmissing (ll lr : PNode) (ld dat : String) (lu : Bool) (d : Nat)
    (hL : relSearch (.node ll lr ld lu) d = none) :
    relSearch (.node (.node ll lr ld lu) .missing dat false) (d + 1) = some [true] := by
  show (relSearch (.node ll lr ld lu) d).elim _ _ = _
  rw [hL]
  rfl

theorem relSearch_rsome (ll lr rl rr : PNode) (ld rd dat : String) (lu ru : Bool)
    (d : Nat) (e : Path)
    (hL : relSearch (.node ll lr ld lu) d = none)
    (hR : relSearch (.node rl rr rd ru) d = some e) :
    relSearch (.node (.node ll lr ld lu) (.node rl rr rd ru) dat false) (d + 1)
      = some (true :: e) := by
  show (relSearch (.node ll lr ld lu) d).elim _ _ = _
  rw [hL, hR]
  rfl

theorem relSearch_rnone (ll lr rl rr : PNode) (ld rd dat : String) (lu ru : Bool) (d : Nat)
    (hL : relSearch (.node ll lr ld lu) d = none)
    (hR : relSearch (.node rl rr rd ru) d = none) :
    relSearch (.node (.node ll lr ld lu) (.node rl rr rd ru) dat false) (d + 1) = none := by
  show (relSearch (.node ll lr ld lu) d).elim _ _ = _
  rw [hL, hR]
  rfl

/-- The `FindGap` walk on the subtree rooted at a non-root node: arriving
first at the node `n` at path `q` (previous at its parent, which is not
used), the walk either returns the gap that `relSearch` finds there, or —
when the subtree has none — backs out to the parent after a bounded number
of steps, with previous at `q`. -/
theorem fg_sim_sub (t : PNode) (size : Nat) (n : PNode) : ∀ (q : Path),
    t.subtreeAt q = n → n ≠ .missing → q ≠ [] → q.length ≤ size →
    t.usedAt q.dropLast = false →
    ∀ fuel, 3 * n.count ≤ fuel →
    (match relSearch n (size - q.length) with
     | some e => ∀ nxt, fgLoop t size true none false fuel (some q.dropLast) (some q) nxt
         = .found (PathToDotQuad (q ++ e) size)
     | none => ∀ nxt, ∃ k, 1 ≤ k ∧ k ≤ 3 * n.count ∧
         fgLoop t size true none false fuel (some q.dropLast) (some q) nxt
         = fgLoop t size true none false (fuel - k) (some q) (some q.dropLast)
             (some q.dropLast)) := by
  induction n with
  | missing => intro q hq hne; exact absurd rfl hne
  | node l r dat u ihl ihr =>
    intro q hq hne hq0 hlen hpu fuel hfuel
    have hu := usedAt_eq t q l r dat u hq
    have hcnt0 : (PNode.node l r dat u).count = 1 + l.count + r.count := rfl
    obtain ⟨f, rfl⟩ : ∃ f, fuel = f + 1 := ⟨fuel - 1, by omega⟩
    have hfp : some q.dropLast = parentLoc q ∨ (some q.dropLast = some ([] : Path) ∧ q = []) :=
      Or.inl (parentLoc_ne_nil q hq0).symm
    cases u with
    | true =>
      rw [relSearch_used]
      intro nxt
      have hcnt : (PNode.node l r dat true).count = 1 + l.count + r.count := rfl
      refine ⟨1, le_refl 1, by omega, ?_⟩
      rw [loop_cont t size f _ q nxt q.dropLast hlen
        (step_fp_used t size _ q nxt hfp hu)
        (by rw [hpu, Bool.false_and])]
      simp
    | false =>
      by_cases hsz : q.length = size
      · have hd0 : size - q.length = 0 := by omega
        rw [hd0, relSearch_zero]
        intro nxt
        have hcnt : (PNode.node l r dat false).count = 1 + l.count + r.count := rfl
        refine ⟨1, le_refl 1, by omega, ?_⟩
        have hstep := step_fp_size t size (some q.dropLast) q nxt hfp hu hsz
        rw [parentLoc_ne_nil q hq0] at hstep
        rw [loop_cont t size f _ q nxt q.dropLast hlen hstep
          (by rw [hpu, Bool.false_and])]
        simp
      · obtain ⟨d, hd⟩ : ∃ d, size - q.length = d + 1 := ⟨size - q.length - 1, by omega⟩
        rw [hd]
        have hlen2 : (q ++ [false]).length ≤ size := by
          rw [List.length_append]
          simp only [List.length_cons, List.length_nil]
          omega
        have hlen3 : (q ++ [true]).length ≤ size := by
          rw [List.length_append]
          simp only [List.length_cons, List.length_nil]
          omega
        cases l with
        | missing =>
          rw [relSearch_lmissing]
          intro nxt
          have hbl : childLoc t q false = none := by
            apply childLoc_none
            have hsub := existsAt_child t q .missing r dat false hq false
            simp only [if_neg Bool.false_ne_true] at hsub
            simp [PNode.existsAt, hsub]
          exact loop_ret t size f _ q nxt _ hlen
            (step_fp_blank t size _ q nxt hfp hu hsz hbl)
        | node ll lr ldat lu =>
          have hcnt : (PNode.node (.node ll lr ldat lu) r dat false).count
              = 1 + (PNode.node ll lr ldat lu).count + r.count := rfl
          have hexl : t.subtreeAt (q ++ [false]) = .node ll lr ldat lu := by
            have hsub := existsAt_child t q (.node ll lr ldat lu) r dat false hq false
            simpa using hsub
          have hchl : childLoc t q false = some (q ++ [false]) := by
            apply childLoc_some
            simp [PNode.existsAt, hexl]
          have step1 : ∀ nxt, fgLoop t size true none false (f + 1) (some q.dropLast) (some q) nxt
              = fgLoop t size true none false f (some q) (some (q ++ [false]))
                  (some (q ++ [false])) := by
            intro nxt
            exact loop_cont t size f _ q nxt (q ++ [false]) hlen
              (step_fp_desc t size _ q nxt (q ++ [false]) hfp hu hsz hchl)
              (by rw [hu, Bool.and_false])
          have hlq : size - (q ++ [false]).length = d := by
            rw [List.length_append]
            simp only [List.length_cons, List.length_nil]
            omega
          have ihl2 := ihl (q ++ [false]) hexl (by simp) (by simp) hlen2
            (by rw [List.dropLast_concat]; exact hu) f (by omega)
          rw [hlq] at ihl2
          rw [List.dropLast_concat] at ihl2
          cases hL : relSearch (.node ll lr ldat lu) d with
          | some e =>
            rw [hL] at ihl2
            rw [relSearch_lsome ll lr r ldat dat lu d e hL]
            intro nxt
            rw [step1 nxt, ihl2 (some (q ++ [false]))]
            rw [List.append_assoc]
            rfl
          | none =>
            rw [hL] at ihl2
            obtain ⟨k1, hk1a, hk1b, hk1eq⟩ := ihl2 (some (q ++ [false]))
            obtain ⟨f2, hf2⟩ : ∃ f2, f - k1 = f2 + 1 := ⟨f - k1 - 1, by omega⟩
            have hnfp := notFP_child q false
            have hfl : some (q ++ [false]) = childLoc t q false := hchl.symm
            cases r with
            | missing =>
              rw [relSearch_rmissing ll lr ldat dat lu d hL]
              intro nxt
              have hbr : childLoc t q true = none := by
                apply childLoc_none
                have hsub := existsAt_child t q (.node ll lr ldat lu) .missing dat false hq true
                simp only [if_pos rfl] at hsub
                simp [PNode.existsAt, hsub]
              rw [step1 nxt, hk1eq, hf2]
              exact loop_ret t size f2 _ q _ _ hlen
                (step_fl_blank t size _ q _ hnfp hfl hu hsz hbr)
            | node rl rr rd ru =>
              have hexr : t.subtreeAt (q ++ [true]) = .node rl rr rd ru := by
                have hsub := existsAt_child t q (.node ll lr ldat lu) (.node rl rr rd ru)
                  dat false hq true
                simpa using hsub
              have hchr : childLoc t q true = some (q ++ [true]) := by
                apply childLoc_some
                simp [PNode.existsAt, hexr]
              have step2 : fgLoop t size true none false (f2 + 1) (some (q ++ [false]))
                    (some q) (some q)
                  = fgLoop t size true none false f2 (some q) (some (q ++ [true]))
                      (some (q ++ [true])) :=
                loop_cont t size f2 _ q _ (q ++ [true]) hlen
                  (step_fl_desc t size _ q _ (q ++ [true]) hnfp hfl hu hsz hchr)
                  (by rw [hu, Bool.and_false])
              have hlq2 : size - (q ++ [true]).length = d := by
                rw [List.length_append]
                simp only [List.length_cons, List.length_nil]
                omega
              have ihr2 := ihr (q ++ [true]) hexr (by simp) (by simp) hlen3
                (by rw [List.dropLast_concat]; exact hu) f2 (by omega)
              rw [hlq2] at ihr2
              rw [List.dropLast_concat] at ihr2
              cases hR : relSearch (.node rl rr rd ru) d with
              | some e =>
                rw [hR] at ihr2
                rw [relSearch_rsome ll lr rl rr ldat rd dat lu ru d e hL hR]
                intro nxt
                rw [step1 nxt, hk1eq, hf2, step2, ihr2 (some (q ++ [true]))]
                rw [List.append_assoc]
                rfl
              | none =>
                rw [hR] at ihr2
                rw [relSearch_rnone ll lr rl rr ldat rd dat lu ru d hL hR]
                intro nxt
                obtain ⟨k2, hk2a, hk2b, hk2eq⟩ := ihr2 (some (q ++ [true]))
                obtain ⟨f3, hf3⟩ : ∃ f3, f2 - k2 = f3 + 1 := ⟨f2 - k2 - 1, by omega⟩
                refine ⟨k1 + k2 + 3, by omega, by omega, ?_⟩
                have hnfp2 := notFP_child q true
                have hnfl : ¬some (q ++ [true]) = childLoc t q false := by
                  rw [hchl]
                  intro hcon
                  exact concat_ne_concat q (Option.some.inj hcon)
                have hstep3 := step_fr t size (some (q ++ [true])) q (some q) hnfp2 hnfl hchr.symm
                rw [parentLoc_ne_nil q hq0] at hstep3
                have step3 : fgLoop t size true none false (f3 + 1) (some (q ++ [true]))
                      (some q) (some q)
                    = fgLoop t size true none false f3 (some q) (some q.dropLast)
                        (some q.dropLast) :=
                  loop_cont t size f3 _ q _ q.dropLast hlen hstep3
                    (by rw [hpu, Bool.false_and])
                rw [step1 nxt, hk1eq, hf2, step2, hk2eq, hf3, step3]
                have hfix : f + 1 - (k1 + k2 + 3) = f3 := by omega
                rw [hfix]

/-- `Tree.FindGap(size)` (defaults: `strict = True`, no `start_from`, no
`test_blank`) computes exactly the left-first recursive search
`relSearch`, rendering the found path at the requested size. -/
theorem fg_sim (l r : PNode) (dat : String) (u : Bool) (size : Nat) :
    FindGap (.node l r dat u) size
      = (match relSearch (.node l r dat u) size with
         | some e => .found (PathToDotQuad e size)
         | none => .gapNone) := by
  have hcz : (PNode.node l r dat u).count = 1 + l.count + r.count := rfl
  have hfp : some ([] : Path) = parentLoc ([] : Path) ∨
      (some ([] : Path) = some ([] : Path) ∧ ([] : Path) = []) := Or.inr ⟨rfl, rfl⟩
  obtain ⟨f, hf⟩ : ∃ f, fgFuel (PNode.node l r dat u) = f + 1 :=
    ⟨fgFuel (PNode.node l r dat u) - 1, by unfold fgFuel; omega⟩
  have hfge : 4 * (PNode.node l r dat u).count + 8 = f + 1 := by
    rw [← hf]; rfl
  show fgLoop (PNode.node l r dat u) size true none false
      (fgFuel (PNode.node l r dat u)) (some []) (some []) (some []) = _
  rw [hf]
  cases u with
  | true =>
    rw [relSearch_used]
    exact loop_used2 _ size f (some []) [] (some []) [] (Nat.zero_le size)
      (step_fp_used _ size (some []) [] (some []) hfp rfl) rfl
  | false =>
    have hu0 : (PNode.node l r dat false).usedAt [] = false := rfl
    cases size with
    | zero =>
      rw [relSearch_zero]
      have hstep := step_fp_size (PNode.node l r dat false) 0 (some []) [] (some []) hfp rfl rfl
      rw [loop_cont_none _ 0 f (some []) [] (some []) (Nat.le_refl 0) hstep]
      obtain ⟨f1, hf1⟩ : ∃ f1, f = f1 + 1 := ⟨f - 1, by omega⟩
      rw [hf1]
      exact loop_none _ 0 true none false f1 (some []) none
    | succ d =>
      have hsz : ¬([] : Path).length = d + 1 := by simp
      have hlen0 : ([] : Path).length ≤ d + 1 := Nat.zero_le _
      cases l with
      | missing =>
        rw [relSearch_lmissing]
        have hbl : childLoc (PNode.node .missing r dat false) [] false = none :=
          childLoc_none _ [] false rfl
        exact loop_ret _ (d + 1) f (some []) [] (some []) _ hlen0
          (step_fp_blank _ (d + 1) (some []) [] (some []) hfp rfl hsz hbl)
      | node ll lr ldat lu =>
        have hexl : (PNode.node (.node ll lr ldat lu) r dat false).subtreeAt [false]
            = .node ll lr ldat lu := rfl
        have hchl : childLoc (PNode.node (.node ll lr ldat lu) r dat false) [] false
            = some [false] := childLoc_some _ [] false rfl
        have step1 : fgLoop (PNode.node (.node ll lr ldat lu) r dat false) (d + 1) true
              none false (f + 1) (some []) (some []) (some [])
            = fgLoop (PNode.node (.node ll lr ldat lu) r dat false) (d + 1) true
              none false f (some []) (some [false]) (some [false]) :=
          loop_cont _ (d + 1) f (some []) [] (some []) [false] hlen0
            (step_fp_desc _ (d + 1) (some []) [] (some []) [false] hfp rfl hsz hchl)
            (by rw [hu0, Bool.and_false])
        have hsub := fg_sim_sub (PNode.node (.node ll lr ldat lu) r dat false) (d + 1)
          (.node ll lr ldat lu) [false] hexl (by simp) (by simp)
          (by simp) rfl f (by
            have hcl : (PNode.node (.node ll lr ldat lu) r dat false).count
                = 1 + (PNode.node ll lr ldat lu).count + r.count := rfl
            omega)
        rw [show (d + 1) - ([false] : Path).length = d from rfl] at hsub
        rw [show ([false] : Path).dropLast = [] from rfl] at hsub
        cases hL : relSearch (.node ll lr ldat lu) d with
        | some e =>
          rw [hL] at hsub
          rw [relSearch_lsome ll lr r ldat dat lu d e hL]
          rw [step1, hsub (some [false])]
          rfl
        | none =>
          rw [hL] at hsub
          obtain ⟨k1, hk1a, hk1b, hk1eq⟩ := hsub (some [false])
          obtain ⟨f2, hf2⟩ : ∃ f2, f - k1 = f2 + 1 := ⟨f - k1 - 1, by
            have hcl : (PNode.node (.node ll lr ldat lu) r dat false).count
                = 1 + (PNode.node ll lr ldat lu).count + r.count := rfl
            omega⟩
          have hnfp : ¬(some [false] = parentLoc ([] : Path) ∨
              (some ([false] : Path) = some ([] : Path) ∧ ([] : Path) = [])) := by
            intro h
            rcases h with h | ⟨h, h2⟩
            · exact Option.noConfusion h
            · simp at h
          have hfl : some ([false] : Path)
              = childLoc (PNode.node (.node ll lr ldat lu) r dat false) [] false :=
            hchl.symm
          cases r with
          | missing =>
            rw [relSearch_rmissing ll lr ldat dat lu d hL]
            have hbr : childLoc (PNode.node (.node ll lr ldat lu) .missing dat false) [] true
                = none := childLoc_none _ [] true rfl
            rw [step1, hk1eq, hf2]
            exact loop_ret _ (d + 1) f2 (some [false]) [] (some []) _ hlen0
              (step_fl_blank _ (d + 1) (some [false]) [] (some []) hnfp hfl rfl hsz hbr)
          | node rl rr rd ru =>
            have hexr : (PNode.node (.node ll lr ldat lu) (.node rl rr rd ru) dat
                false).subtreeAt [true] = .node rl rr rd ru := rfl
            have hchr : childLoc (PNode.node (.node ll lr ldat lu) (.node rl rr rd ru)
                dat false) [] true = some [true] := childLoc_some _ [] true rfl
            have step2 : fgLoop (PNode.node (.node ll lr ldat lu) (.node rl rr rd ru)
                  dat false) (d + 1) true none false (f2 + 1) (some [false]) (some [])
                  (some [])
                = fgLoop (PNode.node (.node ll lr ldat lu) (.node rl rr rd ru) dat false)
                  (d + 1) true none false f2 (some []) (some [true]) (some [true]) :=
              loop_cont _ (d + 1) f2 (some [false]) [] (some []) [true] hlen0
                (step_fl_desc _ (d + 1) (some [false]) [] (some []) [true] hnfp hfl
                  rfl hsz hchr)
                (by rw [hu0, Bool.and_false])
            have hsubR := fg_sim_sub (PNode.node (.node ll lr ldat lu)
              (.node rl rr rd ru) dat false) (d + 1) (.node rl rr rd ru) [true] hexr
              (by simp) (by simp) (by simp) rfl f2 (by
                have hcl : (PNode.node (.node ll lr ldat lu) (.node rl rr rd ru) dat
                    false).count = 1 + (PNode.node ll lr ldat lu).count
                    + (PNode.node rl rr rd ru).count := rfl
                omega)
            rw [show (d + 1) - ([true] : Path).length = d from rfl] at hsubR
            rw [show ([true] : Path).dropLast = [] from rfl] at hsubR
            cases hR : relSearch (.node rl rr rd ru) d with
            | some e =>
              rw [hR] at hsubR
              rw [relSearch_rsome ll lr rl rr ldat rd dat lu ru d e hL hR]
              rw [step1, hk1eq, hf2, step2, hsubR (some [true])]
              rfl
            | none =>
              rw [hR] at hsubR
              rw [relSearch_rnone ll lr rl rr ldat rd dat lu ru d hL hR]
              obtain ⟨k2, hk2a, hk2b, hk2eq⟩ := hsubR (some [true])
              obtain ⟨f3, hf3⟩ : ∃ f3, f2 - k2 = f3 + 1 := ⟨f2 - k2 - 1, by
                have hcl : (PNode.node (.node ll lr ldat lu) (.node rl rr rd ru) dat
                    false).count = 1 + (PNode.node ll lr ldat lu).count
                    + (PNode.node rl rr rd ru).count := rfl
                omega⟩
              have hnfp2 : ¬(some [true] = parentLoc ([] : Path) ∨
                  (some ([true] : Path) = some ([] : Path) ∧ ([] : Path) = [])) := by
                intro h
                rcases h with h | ⟨h, h2⟩
                · exact Option.noConfusion h
                · simp at h
              have hnfl : ¬some ([true] : Path)
                  = childLoc (PNode.node (.node ll lr ldat lu) (.node rl rr rd ru)
                    dat false) [] false := by
                rw [hchl]
                intro hcon
                simp at hcon
              have hstep3 := step_fr (PNode.node (.node ll lr ldat lu)
                (.node rl rr rd ru) dat false) (d + 1) (some [true]) [] (some [])
                hnfp2 hnfl hchr.symm
              rw [step1, hk1eq, hf2, step2, hk2eq, hf3,
                loop_cont_none _ (d + 1) f3 (some [true]) [] (some []) hlen0 hstep3]
              obtain ⟨f4, hf4⟩ : ∃ f4, f3 = f4 + 1 := ⟨f3 - 1, by
                have hcl : (PNode.node (.node ll lr ldat lu) (.node rl rr rd ru) dat
                    false).count = 1 + (PNode.node ll lr ldat lu).count
                    + (PNode.node rl rr rd ru).count := rfl
                omega⟩
              rw [hf4]
              exact loop_none _ (d + 1) true none false f4 (some []) none

/-! Lemmas about `freeB`, `padE`, `val` and `wfN` used by the minimality
proof. -/

theorem freeB_missing (e : Path) : freeB .missing e = true := by
  cases e <;> rfl

theorem freeB_nil (l r : PNode) (dat : String) (u : Bool) :
    freeB (.node l r dat u) [] = !(PNode.node l r dat u).hasUsed := rfl

theorem freeB_cons (l r : PNode) (dat : String) (u : Bool) (b : Bool) (e : Path) :
    freeB (.node l r dat u) (b :: e) = (!u && freeB (if b then r else l) e) := rfl

theorem padE_cons (b : Bool) (e : Path) (d : Nat) :
    padE (b :: e) (d + 1) = b :: padE e d := by
  simp [padE, Nat.succ_sub_succ]

theorem padE_length (e : Path) (d : Nat) (h : e.length ≤ d) :
    (padE e d).length = d := by
  simp only [padE, List.length_append, List.length_replicate]
  omega

theorem val_cons_false (x : Path) : val (false :: x) = val x := by
  simp [val, bval]

theorem val_cons_true (x : Path) : val (true :: x) = 2 ^ x.length + val x := by
  simp [val, bval]

theorem wfN_parts (l r : PNode) (dat : String) (u : Bool)
    (h : wfN (.node l r dat u) = true) :
    (PNode.node l r dat u).hasUsed = true ∧ wfN l = true ∧ wfN r = true := by
  have h2 := h
  simp only [wfN, Bool.and_eq_true] at h2
  exact ⟨h2.1.1, h2.1.2, h2.2⟩

theorem wfN_imp_wfTree (l r : PNode) (dat : String) (u : Bool)
    (h : wfN (.node l r dat u) = true) : wfTree (.node l r dat u) = true := by
  simp only [wfN, Bool.and_eq_true] at h
  obtain ⟨⟨hu, hl⟩, hr⟩ := h
  simp [wfTree, hl, hr]

theorem wfN_missing_or (n : PNode) (h : wfN n = true) :
    n = .missing ∨ (wfTree n = true ∧ n.hasUsed = true) := by
  cases n with
  | missing => exact Or.inl rfl
  | node l r dat u =>
    obtain ⟨h1, h2, h3⟩ := wfN_parts l r dat u h
    exact Or.inr ⟨wfN_imp_wfTree l r dat u h, h1⟩

/-- `relSearch` finds the numerically smallest completely free block `d`
levels down, when the tree satisfies the insert invariant: every node —
except possibly the top one when `d ≥ 1` — has a used node at or below
it. -/
theorem rel_min (n : PNode) : ∀ d, wfTree n = true → (d = 0 → n.hasUsed = true) →
    (match relSearch n d with
     | some e => 1 ≤ e.length ∧ e.length ≤ d ∧ freeB n (padE e d) = true ∧
         ∀ e2, e2.length = d → freeB n e2 = true → val (padE e d) ≤ val e2
     | none => ∀ e2, e2.length = d → freeB n e2 = false) := by
  induction n with
  | missing => intro d hwf; simp [wfTree] at hwf
  | node l r dat u ihl ihr =>
    intro d hwf hd0
    have hwf2 := hwf
    simp only [wfTree, Bool.and_eq_true] at hwf2
    obtain ⟨hwfl, hwfr⟩ := hwf2
    cases u with
    | true =>
      rw [relSearch_used]
      intro e2 hlen2
      cases e2 with
      | nil => simp [freeB_nil, PNode.hasUsed]
      | cons b e2t => simp [freeB_cons]
    | false =>
      cases d with
      | zero =>
        rw [relSearch_zero]
        intro e2 hlen2
        have he2 : e2 = [] := by
          cases e2 with
          | nil => rfl
          | cons b e2t => simp at hlen2
        subst he2
        rw [freeB_nil, hd0 rfl]
        rfl
      | succ d2 =>
        cases l with
        | missing =>
          rw [relSearch_lmissing]
          have hpad : padE [false] (d2 + 1) = false :: List.replicate d2 false := by
            rw [padE_cons]
            simp [padE]
          have hval0 : val (false :: List.replicate d2 false) = 0 := by
            rw [val_cons_false, val_replicate_false]
          refine ⟨by simp, by simp, ?_, ?_⟩
          · rw [hpad, freeB_cons]
            simp [freeB_missing]
          · intro e2 hlen2 hfree2
            rw [hpad, hval0]
            exact Nat.zero_le _
        | node ll llr ldat lu =>
          have ihl2 := ihl d2 (wfN_imp_wfTree ll llr ldat lu hwfl)
            (fun _ => (wfN_parts ll llr ldat lu hwfl).1)
          cases hL : relSearch (.node ll llr ldat lu) d2 with
          | some e =>
            rw [hL] at ihl2
            obtain ⟨ihlen1, ihlen2, ihfree, ihmin⟩ := ihl2
            rw [relSearch_lsome ll llr r ldat dat lu d2 e hL]
            have hplen : (padE e d2).length = d2 := padE_length e d2 ihlen2
            refine ⟨by simp, by simp; omega, ?_, ?_⟩
            · rw [padE_cons, freeB_cons]
              simp [ihfree]
            · intro e2 hlen2 hfree2
              cases e2 with
              | nil => simp at hlen2
              | cons b e2t =>
                have hlen2t : e2t.length = d2 := by
                  simp only [List.length_cons] at hlen2
                  omega
                rw [freeB_cons, Bool.and_eq_true] at hfree2
                rw [padE_cons]
                cases b with
                | false =>
                  rw [val_cons_false, val_cons_false]
                  exact ihmin e2t hlen2t (by simpa using hfree2.2)
                | true =>
                  rw [val_cons_false, val_cons_true]
                  have hlt : val (padE e d2) < 2 ^ d2 := by
                    have := val_lt (padE e d2)
                    rwa [hplen] at this
                  rw [hlen2t]
                  omega
          | none =>
            rw [hL] at ihl2
            cases r with
            | missing =>
              rw [relSearch_rmissing ll llr ldat dat lu d2 hL]
              have hpad : padE [true] (d2 + 1) = true :: List.replicate d2 false := by
                rw [padE_cons]
                simp [padE]
              refine ⟨by simp, by simp, ?_, ?_⟩
              · rw [hpad, freeB_cons]
                simp [freeB_missing]
              · intro e2 hlen2 hfree2
                cases e2 with
                | nil => simp at hlen2
                | cons b e2t =>
                  have hlen2t : e2t.length = d2 := by
                    simp only [List.length_cons] at hlen2
                    omega
                  rw [freeB_cons, Bool.and_eq_true] at hfree2
                  cases b with
                  | false =>
                    exact absurd (by simpa using hfree2.2) (by
                      rw [ihl2 e2t hlen2t]
                      exact Bool.false_ne_true)
                  | true =>
                    rw [hpad, val_cons_true, val_cons_true, val_replicate_false,
                      List.length_replicate, hlen2t]
                    omega
            | node rl rrr rd ru =>
              have ihr2 := ihr d2 (wfN_imp_wfTree rl rrr rd ru hwfr)
                (fun _ => (wfN_parts rl rrr rd ru hwfr).1)
              cases hR : relSearch (.node rl rrr rd ru) d2 with
              | some e =>
                rw [hR] at ihr2
                obtain ⟨ihlen1, ihlen2, ihfree, ihmin⟩ := ihr2
                rw [relSearch_rsome ll llr rl rrr ldat rd dat lu ru d2 e hL hR]
                have hplen : (padE e d2).length = d2 := padE_length e d2 ihlen2
                refine ⟨by simp, by simp; omega, ?_, ?_⟩
                · rw [padE_cons, freeB_cons]
                  simp [ihfree]
                · intro e2 hlen2 hfree2
                  cases e2 with
                  | nil => simp at hlen2
                  | cons b e2t =>
                    have hlen2t : e2t.length = d2 := by
                      simp only [List.length_cons] at hlen2
                      omega
                    rw [freeB_cons, Bool.and_eq_true] at hfree2
                    cases b with
                    | false =>
                      exact absurd (by simpa using hfree2.2) (by
                        rw [ihl2 e2t hlen2t]
                        exact Bool.false_ne_true)
                    | true =>
                      rw [padE_cons, val_cons_true, val_cons_true, hplen, hlen2t]
                      have := ihmin e2t hlen2t (by simpa using hfree2.2)
                      omega
              | none =>
                rw [hR] at ihr2
                rw [relSearch_rnone ll llr rl rrr ldat rd dat lu ru d2 hL hR]
                intro e2 hlen2
                cases e2 with
                | nil => simp at hlen2
                | cons b e2t =>
                  have hlen2t : e2t.length = d2 := by
                    simp only [List.length_cons] at hlen2
                    omega
                  rw [freeB_cons]
                  cases b with
                  | false => simp [ihl2 e2t hlen2t]
                  | true => simp [ihr2 e2t hlen2t]

/-! Reading an address back from a path: the top `len` bits of
`val e * 2^(32-len)` are `e` again. -/

theorem bitsOf_val (e : Path) : bitsOf e.length (val e) = e := by
  induction e with
  | nil => rfl
  | cons b e2 ih =>
    show decide (val (b :: e2) / 2 ^ e2.length % 2 = 1)
        :: bitsOf e2.length (val (b :: e2)) = b :: e2
    have hdiv : val (b :: e2) / 2 ^ e2.length = bval b := by
      show (bval b * 2 ^ e2.length + val e2) / 2 ^ e2.length = bval b
      rw [Nat.mul_comm (bval b), Nat.mul_add_div (Nat.two_pow_pos _),
        Nat.div_eq_of_lt (val_lt e2), Nat.add_zero]
    have htail : bitsOf e2.length (val (b :: e2)) = e2 := by
      show bitsOf e2.length (bval b * 2 ^ e2.length + val e2) = e2
      rw [bitsOf_add_mul_pow, ih]
    rw [hdiv, htail]
    cases b <;> rfl

theorem routeBits_of_val (e : Path) (h : e.length ≤ 32) :
    routeBits (val e * 2 ^ (32 - e.length)) e.length = e := by
  rw [routeBits_high _ _ h, Nat.mul_div_cancel _ (Nat.two_pow_pos _), bitsOf_val]

theorem pathToDotQuad_pad (e : Path) (s : Nat) (h1 : e.length ≤ s) (h2 : s ≤ 32) :
    PathToDotQuad e s = ipStr (val (padE e s) * 2 ^ (32 - s)) s := by
  unfold PathToDotQuad padE
  rw [val_append_replicate, val_append_replicate]
  have hexp : (s - e.length) + (32 - s) = 32 - e.length := by omega
  rw [Nat.mul_assoc, ← pow_add, hexp]

theorem wfN_hasUsed (n : PNode) (hn : n ≠ .missing) (h : wfN n = true) :
    n.hasUsed = true := by
  cases n with
  | missing => exact absurd rfl hn
  | node l r dat u => exact (wfN_parts l r dat u h).1

/-! The chain of nodes that `Insert` creates below an empty slot: unused
sentinel nodes down to the target, which is marked used and set to the
payload. -/

theorem insertGo_fresh_nil (dIns : String) :
    insertGo [] (.node .missing .missing sentinel false) dIns true false false true
      = (.node .missing .missing dIns true, true) := rfl

theorem insertGo_fresh_false (rest : Path) (dIns : String) :
    insertGo (false :: rest) (.node .missing .missing sentinel false) dIns true false false true
      = (.node (insertGo rest (.node .missing .missing sentinel false) dIns
            true false false true).1 .missing sentinel false,
         (insertGo rest (.node .missing .missing sentinel false) dIns
            true false false true).2) := rfl

theorem insertGo_fresh_true (rest : Path) (dIns : String) :
    insertGo (true :: rest) (.node .missing .missing sentinel false) dIns true false false true
      = (.node .missing (insertGo rest (.node .missing .missing sentinel false) dIns
            true false false true).1 sentinel false,
         (insertGo rest (.node .missing .missing sentinel false) dIns
            true false false true).2) := rfl

theorem chain_ok (rest : Path) (dIns : String) :
    (insertGo rest (.node .missing .missing sentinel false) dIns true false false true).2
      = true := by
  induction rest with
  | nil => rw [insertGo_fresh_nil]
  | cons b rest2 ih =>
    cases b with
    | false => rw [insertGo_fresh_false]; exact ih
    | true => rw [insertGo_fresh_true]; exact ih

theorem chain_wf (rest : Path) (dIns : String) :
    wfN (insertGo rest (.node .missing .missing sentinel false) dIns
      true false false true).1 = true := by
  induction rest with
  | nil =>
    rw [insertGo_fresh_nil]
    rfl
  | cons b rest2 ih =>
    have hne : (insertGo rest2 (.node .missing .missing sentinel false) dIns
        true false false true).1 ≠ .missing :=
      insertGo_ne_missing rest2 _ dIns true false false true (by simp)
    have hhu := wfN_hasUsed _ hne ih
    cases b with
    | false =>
      rw [insertGo_fresh_false]
      show ((PNode.node _ .missing sentinel false).hasUsed && wfN _ && wfN .missing) = true
      simp [PNode.hasUsed, hhu, ih, wfN]
    | true =>
      rw [insertGo_fresh_true]
      show ((PNode.node .missing _ sentinel false).hasUsed && wfN .missing && wfN _) = true
      simp [PNode.hasUsed, hhu, ih, wfN]

theorem chain_unfree (rest : Path) (dIns : String) :
    freeB (insertGo rest (.node .missing .missing sentinel false) dIns
      true false false true).1 rest = false := by
  induction rest with
  | nil =>
    rw [insertGo_fresh_nil]
    rfl
  | cons b rest2 ih =>
    cases b with
    | false =>
      rw [insertGo_fresh_false, freeB_cons]
      simpa using ih
    | true =>
      rw [insertGo_fresh_true, freeB_cons]
      simpa using ih

theorem chain_free_other (rest : Path) (dIns : String) : ∀ e2 : Path,
    e2.length = rest.length → e2 ≠ rest →
    freeB (insertGo rest (.node .missing .missing sentinel false) dIns
      true false false true).1 e2 = true := by
  induction rest with
  | nil =>
    intro e2 hlen hne
    cases e2 with
    | nil => exact absurd rfl hne
    | cons b e2t => simp at hlen
  | cons b rest2 ih =>
    intro e2 hlen hne
    cases e2 with
    | nil => simp at hlen
    | cons b2 e2t =>
      have hlt : e2t.length = rest2.length := by
        simp only [List.length_cons] at hlen
        omega
      cases b with
      | false =>
        rw [insertGo_fresh_false, freeB_cons]
        cases b2 with
        | true => simp [freeB_missing]
        | false =>
          have hnet : e2t ≠ rest2 := by
            intro h
            exact hne (by rw [h])
          simp [ih e2t hlt hnet]
      | true =>
        rw [insertGo_fresh_true, freeB_cons]
        cases b2 with
        | false => simp [freeB_missing]
        | true =>
          have hnet : e2t ≠ rest2 := by
            intro h
            exact hne (by rw [h])
          simp [ih e2t hlt hnet]

/-! Characterisations of one step of `Insert` with the default flags. -/

theorem insertGo_nil_ok (l r : PNode) (dat dIns : String) (u : Bool)
    (h : (dat == sentinel) = true) :
    insertGo [] (.node l r dat u) dIns true false false true
      = (.node l r dIns true, true) := by
  simp only [insertGo, Bool.true_and, h, Bool.not_true, Bool.false_eq_true, if_false,
    Bool.true_or]

theorem insertGo_nil_dup (l r : PNode) (dat dIns : String) (u : Bool)
    (h : (dat == sentinel) = false) :
    insertGo [] (.node l r dat u) dIns true false false true
      = (.node l r dat u, false) := by
  simp only [insertGo, Bool.true_and, h, Bool.not_false, if_true]

theorem insertGo_cons_fm (rest : Path) (r : PNode) (dat dIns : String) (u : Bool) :
    insertGo (false :: rest) (.node .missing r dat u) dIns true false false true
      = (.node (insertGo rest (.node .missing .missing sentinel false) dIns
            true false false true).1 r dat u,
         (insertGo rest (.node .missing .missing sentinel false) dIns
            true false false true).2) := by
  simp only [insertGo, Bool.and_false, Bool.false_eq_true, if_false]

theorem insertGo_cons_fn (rest : Path) (ll lr r : PNode) (ld dat dIns : String)
    (lu u : Bool) :
    insertGo (false :: rest) (.node (.node ll lr ld lu) r dat u) dIns true false false true
      = (.node (insertGo rest (.node ll lr ld lu) dIns true false false true).1 r dat u,
         (insertGo rest (.node ll lr ld lu) dIns true false false true).2) := by
  simp only [insertGo, Bool.and_false, Bool.false_eq_true, if_false]

theorem insertGo_cons_tm (rest : Path) (l : PNode) (dat dIns : String) (u : Bool) :
    insertGo (true :: rest) (.node l .missing dat u) dIns true false false true
      = (.node l (insertGo rest (.node .missing .missing sentinel false) dIns
            true false false true).1 dat u,
         (insertGo rest (.node .missing .missing sentinel false) dIns
            true false false true).2) := by
  simp only [insertGo, Bool.and_false, Bool.false_eq_true, if_false, if_true]

theorem insertGo_cons_tn (rest : Path) (l rl rr : PNode) (rd dat dIns : String)
    (ru u : Bool) :
    insertGo (true :: rest) (.node l (.node rl rr rd ru) dat u) dIns true false false true
      = (.node l (insertGo rest (.node rl rr rd ru) dIns true false false true).1 dat u,
         (insertGo rest (.node rl rr rd ru) dIns true false false true).2) := by
  simp only [insertGo, Bool.and_false, Bool.false_eq_true, if_false, if_true]

/-- A default-flag `Insert` preserves the invariant that every node of a
subtree has a used node at or below it. -/
theorem insertGo_wfN (bits : Path) : ∀ (c : PNode) (dIns : String),
    wfN c = true → wfN (insertGo bits c dIns true false false true).1 = true := by
  induction bits with
  | nil =>
    intro c dIns hwf
    cases c with
    | missing => exact hwf
    | node l r dat u =>
      obtain ⟨hhu, hl, hr⟩ := wfN_parts l r dat u hwf
      by_cases hdat : (dat == sentinel) = true
      · rw [insertGo_nil_ok l r dat dIns u hdat]
        simp [wfN, PNode.hasUsed, hl, hr]
      · rw [insertGo_nil_dup l r dat dIns u (by
          rw [Bool.not_eq_true] at hdat
          exact hdat)]
        exact hwf
  | cons b rest ih =>
    intro c dIns hwf
    cases c with
    | missing => exact hwf
    | node l r dat u =>
      obtain ⟨hhu, hl, hr⟩ := wfN_parts l r dat u hwf
      have hCwf := chain_wf rest dIns
      have hChu := wfN_hasUsed _ (insertGo_ne_missing rest _ dIns true false false true
        (by simp)) hCwf
      cases b with
      | false =>
        cases l with
        | missing =>
          rw [insertGo_cons_fm]
          simp [wfN, PNode.hasUsed, hCwf, hChu, hr]
        | node ll lr ld lu =>
          have hC2wf := ih (.node ll lr ld lu) dIns hl
          have hC2hu := wfN_hasUsed _ (insertGo_ne_missing rest _ dIns true false false true
            (by simp)) hC2wf
          rw [insertGo_cons_fn]
          simp [wfN, PNode.hasUsed, hC2wf, hC2hu, hr]
      | true =>
        cases r with
        | missing =>
          rw [insertGo_cons_tm]
          simp [wfN, PNode.hasUsed, hCwf, hChu, hl]
        | node rl rr rd ru =>
          have hC2wf := ih (.node rl rr rd ru) dIns hr
          have hC2hu := wfN_hasUsed _ (insertGo_ne_missing rest _ dIns true false false true
            (by simp)) hC2wf
          rw [insertGo_cons_tn]
          simp [wfN, PNode.hasUsed, hC2wf, hC2hu, hl]

/-- A default-flag `Insert` of a nonempty path preserves the tree
invariant (the root itself is exempt). -/
theorem insertGo_wfTree (b : Bool) (rest : Path) (l r : PNode) (dat dIns : String)
    (u : Bool) (hwf : wfTree (.node l r dat u) = true) :
    wfTree (insertGo (b :: rest) (.node l r dat u) dIns true false false true).1 = true := by
  have hwf2 := hwf
  simp only [wfTree, Bool.and_eq_true] at hwf2
  obtain ⟨hl, hr⟩ := hwf2
  have hCwf := chain_wf rest dIns
  cases b with
  | false =>
    cases l with
    | missing =>
      rw [insertGo_cons_fm]
      simp [wfTree, hCwf, hr]
    | node ll lr ld lu =>
      rw [insertGo_cons_fn]
      simp [wfTree, insertGo_wfN rest (.node ll lr ld lu) dIns hl, hr]
  | true =>
    cases r with
    | missing =>
      rw [insertGo_cons_tm]
      simp [wfTree, hCwf, hl]
    | node rl rr rd ru =>
      rw [insertGo_cons_tn]
      simp [wfTree, insertGo_wfN rest (.node rl rr rd ru) dIns hr, hl]

/-- Inserting a free block with the default flags succeeds, makes exactly
that block unfree, and leaves the freeness of every other same-length
block unchanged. -/
theorem insert_freeB (e : Path) : ∀ (l r : PNode) (dat dIns : String) (u : Bool),
    wfTree (.node l r dat u) = true →
    (e = [] → (PNode.node l r dat u).hasUsed = true) →
    freeB (.node l r dat u) e = true →
    (insertGo e (.node l r dat u) dIns true false false true).2 = true ∧
    freeB (insertGo e (.node l r dat u) dIns true false false true).1 e = false ∧
    ∀ e2, e2.length = e.length → e2 ≠ e →
      freeB (insertGo e (.node l r dat u) dIns true false false true).1 e2
        = freeB (.node l r dat u) e2 := by
  induction e with
  | nil =>
    intro l r dat dIns u hwf hd0 hfree
    rw [freeB_nil, hd0 rfl] at hfree
    simp at hfree
  | cons b rest ih =>
    intro l r dat dIns u hwf hd0 hfree
    have hwf2 := hwf
    simp only [wfTree, Bool.and_eq_true] at hwf2
    obtain ⟨hl, hr⟩ := hwf2
    rw [freeB_cons, Bool.and_eq_true] at hfree
    obtain ⟨hnu, hfc⟩ := hfree
    have hu : u = false := by
      cases u
      · rfl
      · simp at hnu
    subst hu
    cases b with
    | false =>
      have hfcl : freeB l rest = true := by simpa using hfc
      cases l with
      | missing =>
        rw [insertGo_cons_fm]
        refine ⟨chain_ok rest dIns, ?_, ?_⟩
        · rw [freeB_cons]
          simp [chain_unfree rest dIns]
        · intro e2 hlen2 hne2
          cases e2 with
          | nil => simp at hlen2
          | cons b2 e2t =>
            have hlt : e2t.length = rest.length := by
              simp only [List.length_cons] at hlen2
              omega
            cases b2 with
            | true =>
              rw [freeB_cons, freeB_cons]
              rfl
            | false =>
              have hnet : e2t ≠ rest := by
                intro h
                exact hne2 (by rw [h])
              rw [freeB_cons, freeB_cons]
              simp [chain_free_other rest dIns e2t hlt hnet, freeB_missing]
      | node ll lr ld lu =>
        have hih := ih ll lr ld dIns lu (wfN_imp_wfTree ll lr ld lu hl)
          (fun _ => (wfN_parts ll lr ld lu hl).1) hfcl
        obtain ⟨hok, hunfree, hframe⟩ := hih
        rw [insertGo_cons_fn]
        refine ⟨hok, ?_, ?_⟩
        · rw [freeB_cons]
          simp [hunfree]
        · intro e2 hlen2 hne2
          cases e2 with
          | nil => simp at hlen2
          | cons b2 e2t =>
            have hlt : e2t.length = rest.length := by
              simp only [List.length_cons] at hlen2
              omega
            cases b2 with
            | true =>
              rw [freeB_cons, freeB_cons]
              rfl
            | false =>
              have hnet : e2t ≠ rest := by
                intro h
                exact hne2 (by rw [h])
              rw [freeB_cons, freeB_cons]
              simp [hframe e2t hlt hnet]
    | true =>
      have hfcr : freeB r rest = true := by simpa using hfc
      cases r with
      | missing =>
        rw [insertGo_cons_tm]
        refine ⟨chain_ok rest dIns, ?_, ?_⟩
        · rw [freeB_cons]
          simp [chain_unfree rest dIns]
        · intro e2 hlen2 hne2
          cases e2 with
          | nil => simp at hlen2
          | cons b2 e2t =>
            have hlt : e2t.length = rest.length := by
              simp only [List.length_cons] at hlen2
              omega
            cases b2 with
            | false =>
              rw [freeB_cons, freeB_cons]
              rfl
            | true =>
              have hnet : e2t ≠ rest := by
                intro h
                exact hne2 (by rw [h])
              rw [freeB_cons, freeB_cons]
              simp [chain_free_other rest dIns e2t hlt hnet, freeB_missing]
      | node rl rr rd ru =>
        have hih := ih rl rr rd dIns ru (wfN_imp_wfTree rl rr rd ru hr)
          (fun _ => (wfN_parts rl rr rd ru hr).1) hfcr
        obtain ⟨hok, hunfree, hframe⟩ := hih
        rw [insertGo_cons_tn]
        refine ⟨hok, ?_, ?_⟩
        · rw [freeB_cons]
          simp [hunfree]
        · intro e2 hlen2 hne2
          cases e2 with
          | nil => simp at hlen2
          | cons b2 e2t =>
            have hlt : e2t.length = rest.length := by
              simp only [List.length_cons] at hlen2
              omega
            cases b2 with
            | false =>
              rw [freeB_cons, freeB_cons]
              rfl
            | true =>
              have hnet : e2t ≠ rest := by
                intro h
                exact hne2 (by rw [h])
              rw [freeB_cons, freeB_cons]
              simp [hframe e2t hlt hnet]

/-- C1, amended.  For every tree satisfying the insert invariant (every
non-root node has a used node at or below it) and every size `1 ≤ s ≤ 32`:
if a free `/s` block exists, `FindGap(s)` returns the CIDR string of the
numerically smallest one; if none exists it returns `None`; and after
inserting the returned block (default flags, which succeeds), the next
`FindGap(s)` returns either `None` (no free block remains) or a
numerically larger free block. -/
theorem c1_findgap_minimal (t : PNode) (s : Nat) (hwf : wfTree t = true)
    (hs1 : 1 ≤ s) (hs2 : s ≤ 32) :
    ((∃ e0, e0.length = s ∧ freeB t e0 = true) →
      ∃ e, e.length = s ∧ freeB t e = true ∧
        (∀ e2, e2.length = s → freeB t e2 = true → val e ≤ val e2) ∧
        FindGap t s = .found (ipStr (val e * 2 ^ (32 - s)) s) ∧
        (Insert t (val e * 2 ^ (32 - s)) s "claimed").2 = true ∧
        ((FindGap (Insert t (val e * 2 ^ (32 - s)) s "claimed").1 s = .gapNone ∧
            ∀ e2, e2.length = s →
              freeB (Insert t (val e * 2 ^ (32 - s)) s "claimed").1 e2 = false) ∨
          ∃ e3, e3.length = s ∧
            freeB (Insert t (val e * 2 ^ (32 - s)) s "claimed").1 e3 = true ∧
            val e < val e3 ∧
            FindGap (Insert t (val e * 2 ^ (32 - s)) s "claimed").1 s
              = .found (ipStr (val e3 * 2 ^ (32 - s)) s))) ∧
    ((¬∃ e0, e0.length = s ∧ freeB t e0 = true) → FindGap t s = .gapNone) := by
  cases t with
  | missing => simp [wfTree] at hwf
  | node l r dat u =>
    have hmin := rel_min (.node l r dat u) s hwf (fun h0 => absurd h0 (by omega))
    have hsim := fg_sim l r dat u s
    constructor
    · rintro ⟨e0, he0len, he0free⟩
      cases hrel : relSearch (.node l r dat u) s with
      | none =>
        rw [hrel] at hmin
        exact absurd (hmin e0 he0len) (by rw [he0free]; simp)
      | some eP =>
        rw [hrel] at hmin hsim
        obtain ⟨hl1, hl2, hfreeE, hminE⟩ := hmin
        have helen : (padE eP s).length = s := padE_length eP s hl2
        have hroute : routeBits (val (padE eP s) * 2 ^ (32 - s)) s = padE eP s := by
          have h0 := routeBits_of_val (padE eP s) (by rw [helen]; omega)
          rw [helen] at h0
          exact h0
        have hpne : padE eP s ≠ [] := by
          intro h0
          rw [h0] at helen
          simp at helen
          omega
        have hupd := insert_freeB (padE eP s) l r dat "claimed" u hwf
          (fun h0 => absurd h0 hpne) hfreeE
        obtain ⟨hok, hunfree, hframe⟩ := hupd
        have hins : Insert (.node l r dat u) (val (padE eP s) * 2 ^ (32 - s)) s "claimed"
            = insertGo (padE eP s) (.node l r dat u) "claimed" true false false true := by
          show insertGo (routeBits _ _) _ _ _ _ _ _ = _
          rw [hroute]
        refine ⟨padE eP s, helen, hfreeE, hminE, ?_, ?_, ?_⟩
        · refine hsim.trans ?_
          show FGResult.found (PathToDotQuad eP s)
            = FGResult.found (ipStr (val (padE eP s) * 2 ^ (32 - s)) s)
          rw [pathToDotQuad_pad eP s hl2 hs2]
        · rw [hins]
          exact hok
        · rw [hins]
          obtain ⟨b, bs, hpe⟩ : ∃ b bs, padE eP s = b :: bs := by
            cases hpp : padE eP s with
            | nil => exact absurd hpp hpne
            | cons b bs => exact ⟨b, bs, rfl⟩
          have hwf2 : wfTree (insertGo (padE eP s) (.node l r dat u) "claimed"
              true false false true).1 = true := by
            rw [hpe]
            exact insertGo_wfTree b bs l r dat "claimed" u hwf
          cases ht2 : (insertGo (padE eP s) (.node l r dat u) "claimed"
              true false false true).1 with
          | missing =>
            rw [ht2] at hwf2
            simp [wfTree] at hwf2
          | node l2 r2 dat2 u2 =>
            rw [ht2] at hunfree hframe
            have hmin2 := rel_min (.node l2 r2 dat2 u2) s (by rw [← ht2]; exact hwf2)
              (fun h0 => absurd h0 (by omega))
            have hsim2 := fg_sim l2 r2 dat2 u2 s
            cases hrel2 : relSearch (.node l2 r2 dat2 u2) s with
            | none =>
              rw [hrel2] at hmin2 hsim2
              exact Or.inl ⟨hsim2, hmin2⟩
            | some e3 =>
              rw [hrel2] at hmin2 hsim2
              obtain ⟨h31, h32, hfree3, hmin3⟩ := hmin2
              have h3len : (padE e3 s).length = s := padE_length e3 s h32
              have hne3 : padE e3 s ≠ padE eP s := by
                intro hcon
                rw [hcon, hunfree] at hfree3
                exact Bool.noConfusion hfree3
              have hfree3t : freeB (.node l r dat u) (padE e3 s) = true := by
                rw [← hframe (padE e3 s) (by rw [h3len, helen]) hne3]
                exact hfree3
              have hle := hminE (padE e3 s) h3len hfree3t
              have hneval : val (padE eP s) ≠ val (padE e3 s) := by
                intro hv
                have hpad := val_inj (padE eP s) (padE e3 s) (by rw [h3len, helen]) hv
                exact hne3 hpad.symm
              refine Or.inr ⟨padE e3 s, h3len, hfree3, by omega, ?_⟩
              refine hsim2.trans ?_
              show FGResult.found (PathToDotQuad e3 s)
                = FGResult.found (ipStr (val (padE e3 s) * 2 ^ (32 - s)) s)
              rw [pathToDotQuad_pad e3 s h32 hs2]
    · intro hnone
      cases hrel : relSearch (.node l r dat u) s with
      | some eP =>
        rw [hrel] at hmin
        obtain ⟨hl1, hl2, hfreeE, hminE⟩ := hmin
        exact absurd ⟨padE eP s, padE_length eP s hl2, hfreeE⟩ hnone
      | none =>
        rw [hrel] at hsim
        exact hsim

/-- Witness for `c1_findgap_minimal` on the tree with `0.0.0.0/8` inserted
and `s = 8`. -/
theorem c1_findgap_minimal_witness :
    wfTree (Insert tree0 0 8 "d").1 = true ∧ (1 : Nat) ≤ 8 ∧ (8 : Nat) ≤ 32 ∧
    (((∃ e0, e0.length = 8 ∧ freeB (Insert tree0 0 8 "d").1 e0 = true) →
      ∃ e, e.length = 8 ∧ freeB (Insert tree0 0 8 "d").1 e = true ∧
        (∀ e2, e2.length = 8 → freeB (Insert tree0 0 8 "d").1 e2 = true → val e ≤ val e2) ∧
        FindGap (Insert tree0 0 8 "d").1 8 = .found (ipStr (val e * 2 ^ (32 - 8)) 8) ∧
        (Insert (Insert tree0 0 8 "d").1 (val e * 2 ^ (32 - 8)) 8 "claimed").2 = true ∧
        ((FindGap (Insert (Insert tree0 0 8 "d").1 (val e * 2 ^ (32 - 8)) 8 "claimed").1 8
              = .gapNone ∧
            ∀ e2, e2.length = 8 →
              freeB (Insert (Insert tree0 0 8 "d").1 (val e * 2 ^ (32 - 8)) 8
                "claimed").1 e2 = false) ∨
          ∃ e3, e3.length = 8 ∧
            freeB (Insert (Insert tree0 0 8 "d").1 (val e * 2 ^ (32 - 8)) 8
              "claimed").1 e3 = true ∧
            val e < val e3 ∧
            FindGap (Insert (Insert tree0 0 8 "d").1 (val e * 2 ^ (32 - 8)) 8 "claimed").1 8
              = .found (ipStr (val e3 * 2 ^ (32 - 8)) 8))) ∧
    ((¬∃ e0, e0.length = 8 ∧ freeB (Insert tree0 0 8 "d").1 e0 = true) →
      FindGap (Insert tree0 0 8 "d").1 8 = .gapNone)) :=
  ⟨by decide, by decide, by decide,
    c1_findgap_minimal (Insert tree0 0 8 "d").1 8 (by decide) (by decide) (by decide)⟩

end Simlir
